import Mathlib

/-!
# Registry of jobs, payloads and targets (`registry/job.go`)

A shallow embedding of `src/registry/job.go` together with the library functions it calls
(`path.Clean`, `path.Join`, `path.Base`, `path.Split`, `strings.TrimSuffix`) and the store it
talks to, followed by the properties of the registry stated in the specification.

Go strings are Lean `String`s; the path functions work on the underlying character lists.
The separator `/` and the dot are single bytes that never occur inside a multi-byte encoding,
so scanning characters and scanning bytes agree.
-/

set_option autoImplicit false
set_option maxRecDepth 100000

/-! ## Go library: `strings` -/

namespace strings

/-- Core of `strings.Join` on character lists. -/
def joinChars (sep : List Char) : List (List Char) → List Char
  | [] => []
  | [a] => a
  | a :: b :: rest => a ++ sep ++ joinChars sep (b :: rest)

/-- Go `strings.Join(elems, sep)`. -/
def Join (elems : List String) (sep : String) : String :=
  ⟨joinChars sep.data (elems.map String.data)⟩

/-- Go `strings.LastIndexByte`, as an `Int`: the index of the last occurrence of `c`, or `-1`. -/
def lastIndexByte (c : Char) : List Char → Int
  | [] => -1
  | x :: xs =>
    let r := lastIndexByte c xs
    if 0 ≤ r then r + 1 else if x = c then 0 else -1

/-- Go `strings.TrimSuffix(s, suffix)`: `s` without the trailing `suffix`, or `s` itself. -/
def TrimSuffix (s suffix : String) : String :=
  if suffix.data <:+ s.data then ⟨s.data.take (s.data.length - suffix.data.length)⟩ else s

end strings

/-! ## Go library: `path` -/

namespace path

/-- Loop state of `path.Clean`: the bytes written so far (`out`, with `out.w = out.length`)
and `dotdot`, the index in the output where a `..` element must stop. -/
structure CleanState where
  out : List Char
  dotdot : Nat
deriving DecidableEq, Repr

/-- Backtracking loop inside `path.Clean`, run after the first `out.w--`:
`for out.w > dotdot && out.index(out.w) != '/' { out.w-- }`; the argument and the result are
the write index `w`, `buf` is the buffer content before backtracking. -/
def backtrack (buf : List Char) (dotdot : Nat) : Nat → Nat
  | 0 => 0
  | w + 1 => if dotdot < w + 1 ∧ buf.getD (w + 1) '/' ≠ '/' then backtrack buf dotdot w else w + 1

/-- One iteration of the loop of `path.Clean` (`for r < n`), at the byte `c` followed by
`rest`: the unread remainder and the state after the iteration. -/
def cleanStep (rooted : Bool) (c : Char) (rest : List Char) (st : CleanState) :
    List Char × CleanState :=
  if c = '/' then
    -- empty path element
    (rest, st)
  else if c = '.' ∧ (rest = [] ∨ rest.head? = some '/') then
    -- . element
    (rest, st)
  else if c = '.' ∧ rest.head? = some '.' ∧ (rest.tail = [] ∨ rest.tail.head? = some '/') then
    -- .. element: remove to last /
    if st.dotdot < st.out.length then
      -- can backtrack
      (rest.tail, { st with out := st.out.take (backtrack st.out st.dotdot (st.out.length - 1)) })
    else if !rooted then
      -- cannot backtrack, but not rooted, so append .. element
      let o := (if 0 < st.out.length then st.out ++ ['/'] else st.out) ++ ['.', '.']
      (rest.tail, { out := o, dotdot := o.length })
    else
      (rest.tail, st)
  else
    -- real path element: add slash if needed, then copy the element
    let o := if (rooted ∧ st.out.length ≠ 1) ∨ (!rooted ∧ st.out.length ≠ 0)
             then st.out ++ ['/'] else st.out
    ((c :: rest).dropWhile (· ≠ '/'), { st with out := o ++ (c :: rest).takeWhile (· ≠ '/') })

/-- The loop of `path.Clean` on the unread remainder of the path. Every iteration consumes
at least one byte, so a fuel of the length of the remainder is never exhausted. -/
def cleanLoop (rooted : Bool) : Nat → List Char → CleanState → CleanState
  | 0, _, st => st
  | _ + 1, [], st => st
  | fuel + 1, c :: rest, st =>
    cleanLoop rooted fuel (cleanStep rooted c rest st).1 (cleanStep rooted c rest st).2

/-- The loop of `path.Clean` run to the end of the remainder `p`. -/
def cleanRun (rooted : Bool) (p : List Char) (st : CleanState) : CleanState :=
  cleanLoop rooted p.length p st

/-- Core of `path.Clean` on character lists. -/
def cleanChars (p : List Char) : List Char :=
  match p with
  | [] => ['.']
  | c :: rest =>
    let rooted : Bool := c = '/'
    let st := if rooted then cleanRun rooted rest { out := ['/'], dotdot := 1 }
              else cleanRun rooted p { out := [], dotdot := 0 }
    if st.out.length = 0 then ['.'] else st.out

/-- Go `path.Clean`. -/
def Clean (p : String) : String := ⟨cleanChars p.data⟩

/-- Go `path.Join`: the elements from the first non-empty one on, joined by `/` and cleaned;
the empty string when every element is empty. -/
def Join (elem : List String) : String :=
  match elem.dropWhile (· = "") with
  | [] => ""
  | e :: es => Clean (strings.Join (e :: es) "/")

/-- Core of `path.Split`: `i := strings.LastIndex(path, "/"); path[:i+1], path[i+1:]`. -/
def splitChars (p : List Char) : List Char × List Char :=
  let i := strings.lastIndexByte '/' p
  (p.take (i + 1).toNat, p.drop (i + 1).toNat)

/-- Go `path.Split`: directory (with its trailing slash) and file component. -/
def Split (p : String) : String × String :=
  (⟨(splitChars p.data).1⟩, ⟨(splitChars p.data).2⟩)

/-- Core of `path.Base` on character lists. -/
def baseChars (p : List Char) : List Char :=
  if p = [] then ['.']
  else
    -- strip trailing slashes
    let p1 := p.rdropWhile (· = '/')
    -- find the last element
    let i := strings.lastIndexByte '/' p1
    let p2 := if 0 ≤ i then p1.drop (i + 1).toNat else p1
    -- if empty now, it had only slashes
    if p2 = [] then ['/'] else p2

/-- Go `path.Base`: the last element of the path. -/
def Base (p : String) : String := ⟨baseChars p.data⟩

end path

/-! ## Collaborators: machine, job, event, codec -/

/-- Modelled from the spec: `machine.Machine` is declared outside `src/`; a cluster node
identified by a `BootId`, carrying auxiliary fields this file always leaves empty. -/
structure Machine where
  BootId : String
  PublicIP : String
  Metadata : List (String × String)
deriving DecidableEq, Repr

/-- Modelled from the spec: `machine.New` is declared outside `src/`; it builds the value
object from a bare identifier and the given auxiliary fields. -/
def machine.New (bootId publicIP : String) (metadata : List (String × String)) : Machine :=
  { BootId := bootId, PublicIP := publicIP, Metadata := metadata }

/-- Modelled from the spec: `job.Job` is declared outside `src/`; a named unit of work whose
remaining fields are opaque to the registry and carried verbatim. -/
structure Job where
  Name : String
  Rest : String
deriving DecidableEq, Repr

/-- Modelled from the spec: `job.JobPayload` is declared outside `src/`; a named execution
artifact whose remaining fields are opaque to the registry. -/
structure JobPayload where
  Name : String
  Rest : String
deriving DecidableEq, Repr

/-- Zero value of `job.Job` (`var j job.Job`). -/
def Job.zero : Job := { Name := "", Rest := "" }

/-- Zero value of `job.JobPayload` (`var jp job.JobPayload`). -/
def JobPayload.zero : JobPayload := { Name := "", Rest := "" }

/-- The helpers `marshal` and `unmarshal` of the registry package are not in `src/`; they are
taken as parameters. `marshal obj` returns the encoding and an error; `unmarshal val dst`
returns the destination after the call and an error (`none` is Go's `nil`). -/
structure Codec (α : Type) where
  marshal : α → String × Option String
  unmarshal : String → α → α × Option String

/-- The first field of `event.Event` after the kind tag: a job or a job name. -/
inductive EventPayload where
  | job (j : Job)
  | jobName (name : String)
deriving DecidableEq, Repr

/-- Go `event.Event{Type, Payload, Context}`; `Kind` is the field `Type` (a reserved word
here), the context is a machine or `nil`. -/
structure Event where
  Kind : String
  Payload : EventPayload
  Context : Option Machine
deriving DecidableEq, Repr

/-! ## The coordination store -/

/-- Go `etcd.Node`, with the fields the registry reads. The child nodes of a listing are
given one level deep: the registry never reads below them. -/
structure Node where
  Key : String
  Value : String
  Nodes : List (String × String)
deriving DecidableEq, Repr

/-- Go `etcd.Response`. -/
structure Response where
  Action : String
  Node : Node
deriving DecidableEq, Repr

/-- What the store holds at a key: a file with its value, or a directory. -/
inductive Entry where
  | file (value : String)
  | dir
deriving DecidableEq, Repr

/-- The value read at a node: a directory reads as the empty string. -/
def Entry.value : Entry → String
  | .file v => v
  | .dir => ""

/-- The store as a map from key to node: every node, file or directory, is an entry. The
first entry for a key is the live one. -/
abbrev Store := List (String × Entry)

/-- The store behind `r.etcd`: etcd itself, which keeps files and directories apart and
refuses some writes, or the plain key-value map, in which every write succeeds. -/
inductive Client where
  | etcd
  | keyValue
deriving DecidableEq, Repr

namespace Store

/-- Node held at `key`, if any. -/
def lookup (key : String) : Store → Option Entry
  | [] => none
  | (k, v) :: rest => if k = key then some v else lookup key rest

/-- Whether `key` is a direct child of the directory `dir`: `dir/<segment>`. -/
def isChildOf (dir key : String) : Bool :=
  (dir.data ++ ['/']).isPrefixOf key.data
    && (key.data.drop (dir.data.length + 1) != [])
    && !(key.data.drop (dir.data.length + 1)).contains '/'

/-- Whether `key`, a child of `dir`, is hidden from listings: its name starts with `_`. -/
def isHiddenIn (dir key : String) : Bool :=
  (key.data.drop (dir.data.length + 1)).head? = some '_'

/-- Whether `key` lies strictly below the directory `dir`. -/
def isBelow (dir key : String) : Bool :=
  (dir.data ++ ['/']).isPrefixOf key.data

/-- The directories above a key: every non-empty proper prefix that is followed by `/`. -/
def ancestorsFrom (acc : List Char) : List Char → List String
  | [] => []
  | c :: cs =>
    (if c = '/' ∧ acc ≠ [] then [String.mk acc] else []) ++ ancestorsFrom (acc ++ [c]) cs

/-- Byte-wise lexicographic order on keys. -/
def keyLe : List Char → List Char → Bool
  | [], _ => true
  | _ :: _, [] => false
  | a :: as, b :: bs => a.toNat < b.toNat || (a = b && keyLe as bs)

/-- Insertion of an entry into a list of entries sorted by key. -/
def insertSorted (e : String × String) : List (String × String) → List (String × String)
  | [] => [e]
  | x :: xs => if keyLe e.1.data x.1.data then e :: x :: xs else x :: insertSorted e xs

/-- Entries sorted by key. -/
def sortByKey : List (String × String) → List (String × String)
  | [] => []
  | x :: xs => insertSorted x (sortByKey xs)

/-- The live entries: for every key the first entry only. -/
def live : Store → List (String × Entry)
  | [] => []
  | (k, v) :: rest => (k, v) :: (live rest).filter (fun e => e.1 ≠ k)

/-- The live entries that are direct children of `dir` and not hidden, with the value read
at each, in store order. -/
def children (dir : String) (st : Store) : List (String × String) :=
  ((live st).filter (fun e => isChildOf dir e.1 && !isHiddenIn dir e.1)).map
    (fun e => (e.1, e.2.value))

/-- Whether a file is held at `key`. -/
def isFile (st : Store) (key : String) : Bool :=
  match lookup key st with
  | some (.file _) => true
  | _ => false

/-- Whether etcd refuses `Set` at `key`: the root is read-only, a directory is not a file
(error 102), and below a file there is no directory (error 104). -/
def refusesSet (st : Store) (key : String) : Bool :=
  key = "/" || lookup key st = some .dir || (ancestorsFrom [] key.data).any (isFile st)

/-- The write of `Set`: the file replaces what was held at `key`, and the missing
directories above the key are created. -/
def write (st : Store) (key value : String) : Store :=
  let st1 := st.filter (fun e => e.1 ≠ key)
  let dirs := (ancestorsFrom [] key.data).filter (fun d => lookup d st1 = none)
  (key, .file value) :: st1 ++ dirs.map (fun d => (d, .dir))

end Store

/-- Go-etcd `Get(key, sort, recursive)`: key-not-found (`none`) when nothing is held at `key`;
otherwise the node with its value and its listed children, sorted by key when asked. -/
def etcdGet (st : Store) (key : String) (sort _recursive : Bool) : Option Response :=
  match Store.lookup key st with
  | none => none
  | some e =>
    let cs := Store.children key st
    some { Action := "get",
           Node := { Key := key, Value := e.value,
                     Nodes := if sort then Store.sortByKey cs else cs } }

/-- Go-etcd `Set(key, value, 0)`, last writer wins. A write that etcd refuses leaves the
store as it is; the registry drops the error. -/
def etcdSet (c : Client) (st : Store) (key value : String) : Store :=
  match c with
  | .keyValue => Store.write st key value
  | .etcd => if Store.refusesSet st key then st else Store.write st key value

/-- The store accepts a `Set` at `key`: it is the plain key-value map, or etcd does not
refuse the write. -/
def acceptsSet (c : Client) (st : Store) (key : String) : Prop :=
  c = .keyValue ∨ Store.refusesSet st key = false

instance (c : Client) (st : Store) (key : String) : Decidable (acceptsSet c st key) := by
  unfold acceptsSet; infer_instance

/-- Go-etcd `Delete(key, recursive)`: removes the node, with `recursive` also everything
below it. Etcd refuses to delete the root, and without `recursive` a directory (error 102);
a refused delete leaves the store as it is. -/
def etcdDelete (c : Client) (st : Store) (key : String) (recursive : Bool) : Store :=
  match c with
  | .keyValue =>
    if recursive then st.filter (fun e => e.1 ≠ key ∧ ¬ Store.isBelow key e.1)
    else st.filter (fun e => e.1 ≠ key)
  | .etcd =>
    if key = "/" then st
    else if recursive then st.filter (fun e => e.1 ≠ key ∧ ¬ Store.isBelow key e.1)
    else if Store.lookup key st = some .dir then st
    else st.filter (fun e => e.1 ≠ key)

/-! ## The registry (`src/registry/job.go`) -/

/-- Go `jobPrefix`. -/
def jobPrefix : String := "/job/"

/-- Go `payloadPrefix`. -/
def payloadPrefix : String := "/payload/"

/-- What the registry functions use besides the state of the store: the client `r.etcd`,
the constant `keyPrefix` and the helpers `marshal` / `unmarshal`, all declared outside
`src/`. -/
structure Env where
  etcd : Client
  keyPrefix : String
  jobs : Codec Job
  payloads : Codec JobPayload

/-- Go `Registry.GetJobTarget`. -/
def GetJobTarget (env : Env) (st : Store) (jobName : String) : Option Machine :=
  -- Figure out to which Machine this Job is scheduled
  let key := path.Join [env.keyPrefix, jobPrefix, jobName, "target"]
  match etcdGet st key false true with
  | none => none
  | some resp => some (machine.New resp.Node.Value "" [])

/-- Go `Registry.GetJob`: the error of `unmarshal` is dropped. -/
def GetJob (env : Env) (st : Store) (jobName : String) : Option Job :=
  let key := path.Join [env.keyPrefix, jobPrefix, jobName, "object"]
  match etcdGet st key false true with
  | none => none
  | some resp => some (env.jobs.unmarshal resp.Node.Value Job.zero).1

/-- Go `Registry.GetAllJobs`. -/
def GetAllJobs (env : Env) (st : Store) : List Job :=
  let key := path.Join [env.keyPrefix, jobPrefix]
  match etcdGet st key true true with
  | none => []
  | some resp =>
    resp.Node.Nodes.foldl
      (fun jobs node =>
        match GetJob env st (path.Base node.1) with
        | some j => jobs ++ [j]
        | none => jobs)
      []

/-- Go `Registry.GetAllJobsByMachine`. -/
def GetAllJobsByMachine (env : Env) (st : Store) (m : Machine) : List Job :=
  let key := path.Join [env.keyPrefix, jobPrefix]
  match etcdGet st key true true with
  | none => []
  | some resp =>
    resp.Node.Nodes.foldl
      (fun jobs node =>
        match GetJob env st (path.Base node.1) with
        | some j =>
          match GetJobTarget env st j.Name with
          | some tgt => if tgt.BootId = m.BootId then jobs ++ [j] else jobs
          | none => jobs
        | none => jobs)
      []

/-- Go `Registry.CreatePayload`: the error of `marshal` is dropped. -/
def CreatePayload (env : Env) (st : Store) (jp : JobPayload) : Store :=
  let key := path.Join [env.keyPrefix, payloadPrefix, jp.Name]
  let json := (env.payloads.marshal jp).1
  etcdSet env.etcd st key json

/-- Go `Registry.GetPayload`: the error of `unmarshal` is dropped. -/
def GetPayload (env : Env) (st : Store) (payloadName : String) : Option JobPayload :=
  let key := path.Join [env.keyPrefix, payloadPrefix, payloadName]
  match etcdGet st key false true with
  | none => none
  | some resp => some (env.payloads.unmarshal resp.Node.Value JobPayload.zero).1

/-- Go `Registry.DestroyPayload`. -/
def DestroyPayload (env : Env) (st : Store) (payloadName : String) : Store :=
  let key := path.Join [env.keyPrefix, payloadPrefix, payloadName]
  etcdDelete env.etcd st key false

/-- Go `Registry.CreateJob`: the error of `marshal` is dropped. -/
def CreateJob (env : Env) (st : Store) (j : Job) : Store :=
  let key := path.Join [env.keyPrefix, jobPrefix, j.Name, "object"]
  let json := (env.jobs.marshal j).1
  etcdSet env.etcd st key json

/-- Go `Registry.ScheduleJob`. -/
def ScheduleJob (env : Env) (st : Store) (jobName machName : String) : Store :=
  let key := path.Join [env.keyPrefix, jobPrefix, jobName, "target"]
  etcdSet env.etcd st key machName

/-- Go `Registry.StopJob`. -/
def StopJob (env : Env) (st : Store) (jobName : String) : Store :=
  let key := path.Join [env.keyPrefix, jobPrefix, jobName, "target"]
  etcdDelete env.etcd st key true

/-- Go `filterEventJobCreated`. -/
def filterEventJobCreated (env : Env) (resp : Response) : Option Event :=
  if resp.Action ≠ "set" then none
  else
    let baseName := path.Base resp.Node.Key
    if baseName ≠ "object" then none
    else
      let r := env.jobs.unmarshal resp.Node.Value Job.zero
      match r.2 with
      | some _ => none
      | none => some { Kind := "EventJobCreated", Payload := .job r.1, Context := none }

/-- Go `filterEventJobScheduled`. -/
def filterEventJobScheduled (resp : Response) : Option Event :=
  if resp.Action ≠ "set" then none
  else
    let (dir, baseName) := path.Split resp.Node.Key
    if baseName ≠ "target" then none
    else
      let mach := machine.New resp.Node.Value "" []
      let jobName := path.Base (strings.TrimSuffix dir "/")
      some { Kind := "EventJobScheduled", Payload := .jobName jobName, Context := some mach }

/-- Go `filterEventJobStopped`. -/
def filterEventJobStopped (resp : Response) : Option Event :=
  if resp.Action ≠ "delete" ∧ resp.Action ≠ "expire" then none
  else
    let (dir, baseName) := path.Split resp.Node.Key
    if baseName ≠ "target" then none
    else
      let dir := strings.TrimSuffix dir "/"
      let (_, jobName) := path.Split dir
      some { Kind := "EventJobStopped", Payload := .jobName jobName, Context := none }

/-! ## The claim protocol -/

/-- Modelled from the spec: a claim record of §4.3, the holder's BootId and the instant at
which the store lets the record expire. -/
structure Lease where
  holder : String
  expires : Nat
deriving DecidableEq, Repr

/-- Modelled from the spec: the claim namespace of the store, from claim key to record. -/
abbrev Leases := List (String × Lease)

/-- Record stored at a claim key, if any. -/
def Leases.find (key : String) : Leases → Option Lease
  | [] => none
  | (k, l) :: rest => if k = key then some l else Leases.find key rest

/-- Holder of the live claim at `key` at instant `now`: a record that has not expired. -/
def Leases.holderAt (ls : Leases) (now : Nat) (key : String) : Option String :=
  match Leases.find key ls with
  | some l => if now < l.expires then some l.holder else none
  | none => none

/-- Modelled from the spec: `acquireLeadership` is declared outside `src/`. Following §4.3 it
atomically writes `key` with the claimant as value and an expiry of `ttl`, succeeding when no
live claim exists or the live claim is already held by the claimant (the refresh resets the
expiry), and fails, leaving the store as it is, when another holder has a live claim. -/
def acquireLeadership (ls : Leases) (now : Nat) (key holder : String) (ttl : Nat) :
    Bool × Leases :=
  match Leases.holderAt ls now key with
  | none => (true, (key, { holder := holder, expires := now + ttl }) :: ls)
  | some h =>
    if h = holder then (true, (key, { holder := holder, expires := now + ttl }) :: ls)
    else (false, ls)

/-- Go `Registry.ClaimJob`, run at instant `now` on the claim records `ls`:
`r.acquireLeadership(fmt.Sprintf("job-%s", jobName), m.BootId, ttl)`. -/
def ClaimJob (ls : Leases) (now : Nat) (jobName : String) (m : Machine) (ttl : Nat) :
    Bool × Leases :=
  acquireLeadership ls now ("job-" ++ jobName) m.BootId ttl

/-! ## Vocabulary of the specification -/

/-- The segments of a key: the pieces between its separators. -/
def segmentsChars : List Char → List (List Char)
  | [] => [[]]
  | c :: cs =>
    if c = '/' then [] :: segmentsChars cs
    else
      match segmentsChars cs with
      | [] => [[c]]
      | s :: ss => (c :: s) :: ss

/-- Last segment of a key: what follows its last separator. -/
def lastSegmentChars (p : List Char) : List Char :=
  (segmentsChars p).reverse.getD 0 []

/-- Second-to-last segment of a key, empty when the key has a single segment. -/
def secondToLastChars (p : List Char) : List Char :=
  (segmentsChars p).reverse.getD 1 []

/-- Last non-empty segment of a key, empty when there is none. -/
def lastElementChars (p : List Char) : List Char :=
  ((segmentsChars p).filter (· ≠ [])).reverse.getD 0 []

/-- The path segments of a key. -/
def pathSegments (key : String) : List String :=
  (segmentsChars key.data).map String.mk

/-- The final path segment of a key: what follows its last separator. -/
def finalSegment (key : String) : String := ⟨lastSegmentChars key.data⟩

/-- The second-to-last path segment of a key, empty when the key has a single segment. -/
def secondToLastSegment (key : String) : String := ⟨secondToLastChars key.data⟩

/-- The final element of a key: its last non-empty segment (trailing separators do not
open a new element), empty when there is none. -/
def finalElement (key : String) : String := ⟨lastElementChars key.data⟩

/-! ## Auxiliary notions for the loop of `path.Clean` and for names -/

/-- A remainder of a path that is empty or ends with a separator. -/
def EndsAtSeparator (p : List Char) : Prop :=
  p = [] ∨ p.getLast? = some '/'

/-- A remainder of a path that is empty or starts with a separator. -/
def StartsAtSeparator (p : List Char) : Prop :=
  p = [] ∨ p.head? = some '/'

instance (p : List Char) : Decidable (EndsAtSeparator p) := by
  unfold EndsAtSeparator; infer_instance

instance (p : List Char) : Decidable (StartsAtSeparator p) := by
  unfold StartsAtSeparator; infer_instance

/-- A single path element: non-empty, without separator, and neither `.` nor `..`. -/
def PlainChars (e : List Char) : Prop :=
  e ≠ [] ∧ '/' ∉ e ∧ e ≠ ['.'] ∧ e ≠ ['.', '.']

/-- The state of `path.Clean` after a real path element `e` has been copied: a slash is
added first if needed. -/
def pushElement (rooted : Bool) (st : path.CleanState) (e : List Char) : path.CleanState :=
  { st with
    out := (if (rooted ∧ st.out.length ≠ 1) ∨ (!rooted ∧ st.out.length ≠ 0)
            then st.out ++ ['/'] else st.out) ++ e }

/-- A name that is a single path element: non-empty, without separator, and neither `.`
nor `..`. -/
def PlainName (name : String) : Prop := PlainChars name.data

instance (e : List Char) : Decidable (PlainChars e) := by
  unfold PlainChars; infer_instance

instance (name : String) : Decidable (PlainName name) := by
  unfold PlainName; infer_instance

/-- The jobs that `GetJobTarget` reports as scheduled to the machine `m`. -/
def targetsMachine (env : Env) (st : Store) (m : Machine) (j : Job) : Bool :=
  match GetJobTarget env st j.Name with
  | some tgt => tgt.BootId = m.BootId
  | none => false

/-! ## A concrete environment -/

/-- A line codec: the name, a line feed, the remaining fields. Decoding fails on a value
without line feed and leaves the destination as it was. -/
def lineEncode (name rest : String) : String := name ++ "\n" ++ rest

/-- Decoding for the line codec. -/
def lineDecode (val : String) : Option (String × String) :=
  if '\n' ∈ val.data then
    some (⟨val.data.takeWhile (· ≠ '\n')⟩, ⟨(val.data.dropWhile (· ≠ '\n')).drop 1⟩)
  else none

/-- An environment with etcd as store, the line codec and the key prefix
`/coreos.com/coreinit/`. -/
def lineEnv : Env where
  etcd := .etcd
  keyPrefix := "/coreos.com/coreinit/"
  jobs :=
    { marshal := fun j => (lineEncode j.Name j.Rest, none)
      unmarshal := fun val dst =>
        match lineDecode val with
        | some (n, r) => ({ Name := n, Rest := r }, none)
        | none => (dst, some "Unable to deserialize object") }
  payloads :=
    { marshal := fun jp => (lineEncode jp.Name jp.Rest, none)
      unmarshal := fun val dst =>
        match lineDecode val with
        | some (n, r) => ({ Name := n, Rest := r }, none)
        | none => (dst, some "Unable to deserialize object") }

/-- The store reached from the empty one by creating the jobs `a` and `b` and scheduling `a`
to the machine `X` and `b` to the machine `Y`. -/
def scheduledAB : Store :=
  ScheduleJob lineEnv
    (ScheduleJob lineEnv
      (CreateJob lineEnv (CreateJob lineEnv [] ⟨"a", "unit-a"⟩) ⟨"b", "unit-b"⟩) "a" "X")
    "b" "Y"

/-- The environment `lineEnv` over the plain key-value map. -/
def lineEnvKeyValue : Env := { lineEnv with etcd := .keyValue }

/-- The store in which the payload `a/b` has been created: the payload key of `a` is a
directory. -/
def payloadBelowA : Store := CreatePayload lineEnv [] ⟨"a/b", "1"⟩

/-- The store in which the job `a/object` has been created: the object key of the job `a`
is a directory. -/
def jobBelowA : Store := CreateJob lineEnv [] ⟨"a/object", "1"⟩

/-! ## Store lemmas -/

theorem Store.lookup_eq_none_of_forall (key : String) (st : Store)
    (h : ∀ e ∈ st, e.1 ≠ key) : Store.lookup key st = none := by
  induction st with
  | nil => rfl
  | cons e rest ih =>
    obtain ⟨k, v⟩ := e
    have hk : k ≠ key := h (k, v) (List.mem_cons_self _ _)
    simp only [Store.lookup, if_neg hk]
    exact ih (fun e he => h e (List.mem_cons_of_mem _ he))

theorem Store.lookup_write_self (st : Store) (key value : String) :
    Store.lookup key (Store.write st key value) = some (.file value) := by
  simp [Store.write, Store.lookup]

theorem etcdSet_of_accepts (c : Client) (st : Store) (key value : String)
    (h : acceptsSet c st key) : etcdSet c st key value = Store.write st key value := by
  cases c with
  | keyValue => rfl
  | etcd =>
    rcases h with h | h
    · cases h
    · simp [etcdSet, h]

theorem etcdSet_eq_or (c : Client) (st : Store) (key value : String) :
    etcdSet c st key value = st ∨ etcdSet c st key value = Store.write st key value := by
  cases c with
  | keyValue => right; rfl
  | etcd =>
    simp only [etcdSet]
    split
    · left; rfl
    · right; rfl

theorem Store.lookup_etcdDelete_self (st : Store) (key : String) :
    Store.lookup key (etcdDelete .keyValue st key true) = none := by
  apply Store.lookup_eq_none_of_forall
  intro e he
  simp only [etcdDelete, if_true, List.mem_filter, decide_eq_true_eq] at he
  exact he.2.1

theorem GetJobTarget_eq (env : Env) (st : Store) (n : String) :
    GetJobTarget env st n =
      (Store.lookup (path.Join [env.keyPrefix, jobPrefix, n, "target"]) st).map
        (fun e => machine.New e.value "" []) := by
  simp only [GetJobTarget, etcdGet]
  generalize Store.lookup (path.Join [env.keyPrefix, jobPrefix, n, "target"]) st = o
  cases o <;> rfl

theorem GetJob_eq (env : Env) (st : Store) (n : String) :
    GetJob env st n =
      (Store.lookup (path.Join [env.keyPrefix, jobPrefix, n, "object"]) st).map
        (fun e => (env.jobs.unmarshal e.value Job.zero).1) := by
  simp only [GetJob, etcdGet]
  generalize Store.lookup (path.Join [env.keyPrefix, jobPrefix, n, "object"]) st = o
  cases o <;> rfl

theorem GetPayload_eq (env : Env) (st : Store) (n : String) :
    GetPayload env st n =
      (Store.lookup (path.Join [env.keyPrefix, payloadPrefix, n]) st).map
        (fun e => (env.payloads.unmarshal e.value JobPayload.zero).1) := by
  simp only [GetPayload, etcdGet]
  generalize Store.lookup (path.Join [env.keyPrefix, payloadPrefix, n]) st = o
  cases o <;> rfl

/-! ## Target lifecycle and round trips -/

/-- C1: over the key-value model of the store, `GetJobTarget n` is none when nothing is held
at the target key of `n`, is a machine with BootId `m` after `ScheduleJob n m`, and is none
again after `StopJob n`. -/
theorem target_lifecycle (env : Env) (st : Store) (n m : String)
    (hkv : env.etcd = Client.keyValue) :
    (Store.lookup (path.Join [env.keyPrefix, jobPrefix, n, "target"]) st = none →
        GetJobTarget env st n = none)
    ∧ (∃ mach, GetJobTarget env (ScheduleJob env st n m) n = some mach ∧ mach.BootId = m)
    ∧ GetJobTarget env (StopJob env (ScheduleJob env st n m) n) n = none
    ∧ GetJobTarget env (StopJob env st n) n = none := by
  refine ⟨?_, ?_, ?_, ?_⟩
  · intro h
    rw [GetJobTarget_eq, h]; rfl
  · refine ⟨machine.New m "" [], ?_, rfl⟩
    rw [GetJobTarget_eq]
    simp only [ScheduleJob]
    rw [etcdSet_of_accepts _ _ _ _ (Or.inl hkv), Store.lookup_write_self]; rfl
  · rw [GetJobTarget_eq]
    simp only [StopJob, hkv]
    rw [Store.lookup_etcdDelete_self]; rfl
  · rw [GetJobTarget_eq]
    simp only [StopJob, hkv]
    rw [Store.lookup_etcdDelete_self]; rfl

/-- C1 at the empty store, job `foo` and machine `m1`. -/
theorem target_lifecycle_witness :
    GetJobTarget lineEnvKeyValue [] "foo" = none
    ∧ (∃ mach, GetJobTarget lineEnvKeyValue (ScheduleJob lineEnvKeyValue [] "foo" "m1") "foo"
          = some mach
        ∧ mach.BootId = "m1") :=
  ⟨(target_lifecycle lineEnvKeyValue [] "foo" "m1" rfl).1 rfl,
   (target_lifecycle lineEnvKeyValue [] "foo" "m1" rfl).2.1⟩

/-- C2, as the code has it: when the store accepts the write at the key of the record (the
key is not a directory and no key above it is a file) and the codec decodes the encoding of
the record back to that record, `GetJob j.Name` after `CreateJob j` returns `j`, and
`GetPayload p.Name` after `CreatePayload p` returns `p`. -/
theorem create_get_round_trip (env : Env) (st : Store) :
    (∀ j : Job,
        acceptsSet env.etcd st (path.Join [env.keyPrefix, jobPrefix, j.Name, "object"]) →
        (env.jobs.unmarshal (env.jobs.marshal j).1 Job.zero).1 = j →
        GetJob env (CreateJob env st j) j.Name = some j)
    ∧ (∀ p : JobPayload,
        acceptsSet env.etcd st (path.Join [env.keyPrefix, payloadPrefix, p.Name]) →
        (env.payloads.unmarshal (env.payloads.marshal p).1 JobPayload.zero).1 = p →
        GetPayload env (CreatePayload env st p) p.Name = some p) := by
  constructor
  · intro j hacc hj
    rw [GetJob_eq]
    simp only [CreateJob]
    rw [etcdSet_of_accepts _ _ _ _ hacc, Store.lookup_write_self]
    simp [Entry.value, hj]
  · intro p hacc hp
    rw [GetPayload_eq]
    simp only [CreatePayload]
    rw [etcdSet_of_accepts _ _ _ _ hacc, Store.lookup_write_self]
    simp [Entry.value, hp]

/-- C2 at the line codec over etcd, for the job `foo` and the payload `bar` created in the
empty store. -/
theorem create_get_round_trip_witness :
    GetJob lineEnv (CreateJob lineEnv [] ⟨"foo", "unit"⟩) "foo" = some ⟨"foo", "unit"⟩
    ∧ GetPayload lineEnv (CreatePayload lineEnv [] ⟨"bar", "blob"⟩) "bar" = some ⟨"bar", "blob"⟩ :=
  ⟨(create_get_round_trip lineEnv []).1 ⟨"foo", "unit"⟩ (by decide) (by decide),
   (create_get_round_trip lineEnv []).2 ⟨"bar", "blob"⟩ (by decide) (by decide)⟩

/-- C2 fails as stated: after the payload `a/b` has been created the payload key of `a` is
a directory, etcd refuses the write of `CreatePayload` for the payload `a`, the error is
dropped, and `GetPayload a` reads the directory and returns the zero record; likewise for
the job `a` once the job `a/object` has been created. The codec decodes both records back
from their encodings. -/
theorem create_get_round_trip_refused_write :
    GetPayload lineEnv (CreatePayload lineEnv payloadBelowA ⟨"a", "2"⟩) "a" = some ⟨"", ""⟩
    ∧ lineEnv.payloads.unmarshal (lineEnv.payloads.marshal ⟨"a", "2"⟩).1 JobPayload.zero
        = (⟨"a", "2"⟩, none)
    ∧ GetJob lineEnv (CreateJob lineEnv jobBelowA ⟨"a", "2"⟩) "a" = some ⟨"", ""⟩
    ∧ lineEnv.jobs.unmarshal (lineEnv.jobs.marshal ⟨"a", "2"⟩).1 Job.zero = (⟨"a", "2"⟩, none)
    ∧ ¬ (∀ (env : Env) (st : Store) (p : JobPayload),
          GetPayload env (CreatePayload env st p) p.Name = some p)
    ∧ ¬ (∀ (env : Env) (st : Store) (j : Job),
          GetJob env (CreateJob env st j) j.Name = some j) := by
  refine ⟨by decide, by decide, by decide, by decide, ?_, ?_⟩
  · intro h
    have h2 := h lineEnv payloadBelowA ⟨"a", "2"⟩
    revert h2
    decide
  · intro h
    have h2 := h lineEnv jobBelowA ⟨"a", "2"⟩
    revert h2
    decide

/-! ## Listing -/

theorem foldl_collect_jobs {α : Type} (f : α → Option Job) (nodes : List α) (acc : List Job) :
    nodes.foldl
        (fun jobs node =>
          match f node with
          | some j => jobs ++ [j]
          | none => jobs)
        acc
      = acc ++ nodes.filterMap f := by
  induction nodes generalizing acc with
  | nil => simp
  | cons x xs ih =>
    simp only [List.foldl_cons, List.filterMap_cons]
    rw [ih]
    cases f x <;> simp

theorem foldl_collect_jobs_filter {α : Type} (f : α → Option Job) (g : Job → Option Machine)
    (b : String) (nodes : List α) (acc : List Job) :
    nodes.foldl
        (fun jobs node =>
          match f node with
          | some j =>
            match g j with
            | some tgt => if tgt.BootId = b then jobs ++ [j] else jobs
            | none => jobs
          | none => jobs)
        acc
      = acc ++ (nodes.filterMap f).filter
          (fun j => match g j with
            | some tgt => decide (tgt.BootId = b)
            | none => false) := by
  induction nodes generalizing acc with
  | nil => simp
  | cons x xs ih =>
    simp only [List.foldl_cons, List.filterMap_cons]
    rw [ih]
    cases hx : f x with
    | none => simp
    | some j =>
      cases hg : g j with
      | none => simp [List.filter_cons, hg]
      | some tgt =>
        by_cases hb : tgt.BootId = b <;> simp [List.filter_cons, hg, hb]

theorem GetAllJobsByMachine_eq_filter (env : Env) (st : Store) (m : Machine) :
    GetAllJobsByMachine env st m = (GetAllJobs env st).filter (targetsMachine env st m) := by
  simp only [GetAllJobsByMachine, GetAllJobs]
  cases etcdGet st (path.Join [env.keyPrefix, jobPrefix]) true true with
  | none => rfl
  | some resp =>
    simp only []
    have h1 := foldl_collect_jobs_filter
      (fun node : String × String => GetJob env st (path.Base node.1))
      (fun j => GetJobTarget env st j.Name) m.BootId resp.Node.Nodes []
    have h2 := foldl_collect_jobs
      (fun node : String × String => GetJob env st (path.Base node.1)) resp.Node.Nodes []
    simp only [List.nil_append] at h1 h2
    rw [h1, h2]
    rfl

/-- C3: `GetAllJobsByMachine M` is `GetAllJobs` filtered, order kept, to the jobs whose target
reported by `GetJobTarget` is present with the BootId of `M`; when the jobs are `a` and `b`,
`a` scheduled to `X` and `b` to a different `Y`, the result for `X` is exactly `[a]`. -/
theorem jobs_by_machine_is_filtered_listing (env : Env) (st : Store) :
    (∀ m : Machine,
        GetAllJobsByMachine env st m
          = (GetAllJobs env st).filter
              (fun j => match GetJobTarget env st j.Name with
                | some tgt => decide (tgt.BootId = m.BootId)
                | none => false))
    ∧ (∀ (a b : Job) (x y : Machine),
        GetAllJobs env st = [a, b] →
        (∃ ta, GetJobTarget env st a.Name = some ta ∧ ta.BootId = x.BootId) →
        (∃ tb, GetJobTarget env st b.Name = some tb ∧ tb.BootId = y.BootId) →
        x.BootId ≠ y.BootId →
        GetAllJobsByMachine env st x = [a]) := by
  constructor
  · intro m
    exact GetAllJobsByMachine_eq_filter env st m
  · intro a b x y hall ha hb hxy
    obtain ⟨ta, hta, hta2⟩ := ha
    obtain ⟨tb, htb, htb2⟩ := hb
    rw [GetAllJobsByMachine_eq_filter, hall]
    have h1 : targetsMachine env st x a = true := by simp [targetsMachine, hta, hta2]
    have h2 : targetsMachine env st x b = false := by
      simp only [targetsMachine, htb, htb2, decide_eq_false_iff_not]
      exact fun h => hxy h.symm
    simp [List.filter_cons, h1, h2]

/-- C3 on the store reached from the empty one by creating `a` and `b` and scheduling `a`
to `X` and `b` to `Y`. -/
theorem jobs_by_machine_is_filtered_listing_witness :
    GetAllJobs lineEnv scheduledAB = [⟨"a", "unit-a"⟩, ⟨"b", "unit-b"⟩]
    ∧ GetAllJobsByMachine lineEnv scheduledAB (machine.New "X" "" []) = [⟨"a", "unit-a"⟩] :=
  ⟨by decide,
   (jobs_by_machine_is_filtered_listing lineEnv scheduledAB).2 ⟨"a", "unit-a"⟩ ⟨"b", "unit-b"⟩
     (machine.New "X" "" []) (machine.New "Y" "" []) (by decide)
     ⟨machine.New "X" "" [], by decide, rfl⟩ ⟨machine.New "Y" "" [], by decide, rfl⟩
     (by decide)⟩

/-! ## Undecodable records -/

/-- Whenever a value is held at the object key, `GetJob` returns a record, whatever
`unmarshal` reports: the record is what `unmarshal` left in the zero value. -/
theorem GetJob_of_value (env : Env) (st : Store) (n : String) (e : Entry)
    (h : Store.lookup (path.Join [env.keyPrefix, jobPrefix, n, "object"]) st = some e) :
    GetJob env st n = some (env.jobs.unmarshal e.value Job.zero).1 := by
  rw [GetJob_eq, h]; rfl

/-- Whenever a value is held at the payload key, `GetPayload` returns a record, whatever
`unmarshal` reports. -/
theorem GetPayload_of_value (env : Env) (st : Store) (n : String) (e : Entry)
    (h : Store.lookup (path.Join [env.keyPrefix, payloadPrefix, n]) st = some e) :
    GetPayload env st n = some (env.payloads.unmarshal e.value JobPayload.zero).1 := by
  rw [GetPayload_eq, h]; rfl

/-- C7: with the value `garbage`, which the line codec cannot decode, held at the object key
of `foo` and at the payload key of `bar`, `GetJob foo` and `GetPayload bar` return the zero
record instead of none. -/
theorem GetJob_undecodable_returns_zero_record :
    (lineEnv.jobs.unmarshal "garbage" Job.zero).2 ≠ none
    ∧ GetJob lineEnv [("/coreos.com/coreinit/job/foo/object", .file "garbage")] "foo"
        = some ⟨"", ""⟩
    ∧ GetPayload lineEnv [("/coreos.com/coreinit/payload/bar", .file "garbage")] "bar"
        = some ⟨"", ""⟩ := by
  decide

/-- C8: after a `Set` of the undecodable value `garbage` at the object key of `foo`,
`GetAllJobs` lists one job, the zero record, instead of skipping the directory. -/
theorem GetAllJobs_undecodable_lists_zero_record :
    (lineEnv.jobs.unmarshal "garbage" Job.zero).2 ≠ none
    ∧ GetAllJobs lineEnv (etcdSet .etcd [] "/coreos.com/coreinit/job/foo/object" "garbage")
        = [⟨"", ""⟩] := by
  decide

/-! ## Claims -/

/-- C9: once `ClaimJob name m1 ttl` has succeeded at instant `t0`, at every instant `t` before
`t0 + ttl` a claim by a machine with another BootId is denied and leaves the record as it is,
a claim by `m1` succeeds again, and the live record under `job-<name>` names `m1` as its only
holder, also after the refresh. -/
theorem claim_mutual_exclusion (ls : Leases) (t0 t ttl ttl2 : Nat) (name : String)
    (m1 m2 : Machine) (hne : m1.BootId ≠ m2.BootId)
    (hok : (ClaimJob ls t0 name m1 ttl).1 = true) (ht : t < t0 + ttl) :
    ClaimJob (ClaimJob ls t0 name m1 ttl).2 t name m2 ttl2
        = (false, (ClaimJob ls t0 name m1 ttl).2)
    ∧ (ClaimJob (ClaimJob ls t0 name m1 ttl).2 t name m1 ttl2).1 = true
    ∧ (∀ h, Leases.holderAt (ClaimJob ls t0 name m1 ttl).2 t ("job-" ++ name) = some h ↔
          h = m1.BootId)
    ∧ (0 < ttl2 →
        Leases.holderAt (ClaimJob (ClaimJob ls t0 name m1 ttl).2 t name m1 ttl2).2 t
          ("job-" ++ name) = some m1.BootId) := by
  have hls : (ClaimJob ls t0 name m1 ttl).2
      = ("job-" ++ name, { holder := m1.BootId, expires := t0 + ttl }) :: ls := by
    simp only [ClaimJob, acquireLeadership] at hok ⊢
    cases hh : Leases.holderAt ls t0 ("job-" ++ name) with
    | none => rfl
    | some h =>
      rw [hh] at hok
      by_cases hm : h = m1.BootId
      · simp [hm]
      · simp [hm] at hok
  have hlive : Leases.holderAt (ClaimJob ls t0 name m1 ttl).2 t ("job-" ++ name)
      = some m1.BootId := by
    rw [hls]; simp [Leases.holderAt, Leases.find, ht]
  refine ⟨?_, ?_, ?_, ?_⟩
  · simp only [ClaimJob, acquireLeadership] at hlive ⊢
    rw [hlive]
    simp [hne]
  · simp only [ClaimJob, acquireLeadership] at hlive ⊢
    rw [hlive]
    simp
  · intro h
    rw [hlive]
    constructor
    · intro e; exact (Option.some.inj e).symm
    · intro e; rw [e]
  · intro hpos
    simp only [ClaimJob, acquireLeadership] at hlive ⊢
    rw [hlive]
    simp [Leases.holderAt, Leases.find, hpos]

/-- C9 with `m1` claiming `foo` at instant 10 for 5 units and `m2` trying at instant 12. -/
theorem claim_mutual_exclusion_witness :
    (ClaimJob [] 10 "foo" (machine.New "m1" "" []) 5).1 = true
    ∧ (ClaimJob (ClaimJob [] 10 "foo" (machine.New "m1" "" []) 5).2 12 "foo"
        (machine.New "m2" "" []) 5).1 = false :=
  ⟨by decide,
   congrArg Prod.fst
     (claim_mutual_exclusion [] 10 12 5 5 "foo" (machine.New "m1" "" []) (machine.New "m2" "" [])
       (by decide) (by decide) (by decide)).1⟩

/-! ## Separators and segments -/

theorem strings.lastIndexByte_of_not_mem (c : Char) (f : List Char) (h : c ∉ f) :
    strings.lastIndexByte c f = -1 := by
  induction f with
  | nil => rfl
  | cons x xs ih =>
    have hx : x ≠ c := fun e => h (e ▸ List.mem_cons_self _ _)
    have hxs : c ∉ xs := fun m => h (List.mem_cons_of_mem _ m)
    simp [strings.lastIndexByte, ih hxs, hx]

theorem strings.lastIndexByte_append (c : Char) (d f : List Char) (h : c ∉ f) :
    strings.lastIndexByte c (d ++ c :: f) = d.length := by
  induction d with
  | nil => simp [strings.lastIndexByte, strings.lastIndexByte_of_not_mem c f h]
  | cons x xs ih =>
    have hnn : (0 : Int) ≤ (xs.length : Int) := Int.natCast_nonneg _
    simp only [List.cons_append, strings.lastIndexByte, List.append_eq]
    rw [ih]
    simp [hnn]

theorem exists_last_separator (c : Char) (p : List Char) :
    c ∉ p ∨ ∃ d f, p = d ++ c :: f ∧ c ∉ f := by
  induction p with
  | nil => left; simp
  | cons x xs ih =>
    rcases ih with h | ⟨d, f, hp, hf⟩
    · by_cases hx : x = c
      · right; exact ⟨[], xs, by simp [hx], h⟩
      · left
        simp only [List.mem_cons, not_or]
        exact ⟨fun e => hx e.symm, h⟩
    · right; exact ⟨x :: d, f, by simp [hp], hf⟩

theorem path.splitChars_of_not_mem (f : List Char) (h : '/' ∉ f) :
    path.splitChars f = ([], f) := by
  simp [path.splitChars, strings.lastIndexByte_of_not_mem '/' f h]

theorem path.splitChars_append (d f : List Char) (h : '/' ∉ f) :
    path.splitChars (d ++ '/' :: f) = (d ++ ['/'], f) := by
  simp only [path.splitChars, strings.lastIndexByte_append '/' d f h]
  have e : ((d.length : Int) + 1).toNat = d.length + 1 := by omega
  rw [e]
  have e2 : d ++ '/' :: f = (d ++ ['/']) ++ f := by simp
  rw [e2]
  have e3 : d.length + 1 = (d ++ ['/']).length := by simp
  rw [e3, List.take_left, List.drop_left]

theorem segmentsChars_ne_nil (p : List Char) : segmentsChars p ≠ [] := by
  cases p with
  | nil => simp [segmentsChars]
  | cons c cs =>
    simp only [segmentsChars]
    split
    · simp
    · split <;> simp

theorem segmentsChars_of_not_mem (f : List Char) (h : '/' ∉ f) : segmentsChars f = [f] := by
  induction f with
  | nil => rfl
  | cons x xs ih =>
    have hx : x ≠ '/' := fun e => h (e ▸ List.mem_cons_self _ _)
    have hxs : '/' ∉ xs := fun m => h (List.mem_cons_of_mem _ m)
    simp [segmentsChars, ih hxs, hx]

theorem segmentsChars_append (d f : List Char) :
    segmentsChars (d ++ '/' :: f) = segmentsChars d ++ segmentsChars f := by
  induction d with
  | nil => simp [segmentsChars]
  | cons x xs ih =>
    simp only [List.cons_append, segmentsChars, List.append_eq]
    rw [ih]
    by_cases hx : x = '/'
    · simp [hx]
    · simp only [hx, if_false]
      cases hs : segmentsChars xs with
      | nil => exact absurd hs (segmentsChars_ne_nil xs)
      | cons s ss => simp

theorem lastSegmentChars_eq_split (p : List Char) :
    lastSegmentChars p = (path.splitChars p).2 := by
  rcases exists_last_separator '/' p with h | ⟨d, f, hp, hf⟩
  · simp [lastSegmentChars, segmentsChars_of_not_mem p h, path.splitChars_of_not_mem p h]
  · subst hp
    simp [lastSegmentChars, segmentsChars_append, segmentsChars_of_not_mem f hf,
      path.splitChars_append d f hf]

theorem secondToLastChars_of_not_mem (f : List Char) (h : '/' ∉ f) :
    secondToLastChars f = [] := by
  simp [secondToLastChars, segmentsChars_of_not_mem f h]

theorem secondToLastChars_append (d f : List Char) (h : '/' ∉ f) :
    secondToLastChars (d ++ '/' :: f) = lastSegmentChars d := by
  simp [secondToLastChars, lastSegmentChars, segmentsChars_append, segmentsChars_of_not_mem f h]

theorem lastElementChars_snoc_sep (p : List Char) :
    lastElementChars (p ++ ['/']) = lastElementChars p := by
  simp [lastElementChars, segmentsChars_append, segmentsChars, List.filter_append]

theorem lastElementChars_of_lastSegment (p : List Char) (h : lastSegmentChars p ≠ []) :
    lastElementChars p = lastSegmentChars p := by
  rcases exists_last_separator '/' p with hp | ⟨d, f, hp, hf⟩
  · have hne : p ≠ [] := by
      intro e; subst e; exact h rfl
    simp [lastElementChars, lastSegmentChars, segmentsChars_of_not_mem p hp, hne]
  · subst hp
    have hf2 : f ≠ [] := by
      intro e; subst e
      apply h
      simp [lastSegmentChars, segmentsChars_append, segmentsChars]
    simp [lastElementChars, lastSegmentChars, segmentsChars_append,
      segmentsChars_of_not_mem f hf, List.filter_append, hf2]

theorem lastSegmentChars_snoc (p : List Char) (c : Char) (hc : c ≠ '/') :
    lastSegmentChars (p ++ [c]) ≠ [] := by
  rcases exists_last_separator '/' (p ++ [c]) with h | ⟨d, f, hp, hf⟩
  · simp [lastSegmentChars, segmentsChars_of_not_mem _ h]
  · rw [hp]
    have hf2 : f ≠ [] := by
      intro e; subst e
      have := congrArg List.getLast? hp
      simp at this
      exact hc this
    simp [lastSegmentChars, segmentsChars_append, segmentsChars_of_not_mem f hf, hf2]

theorem lastElementChars_eq_rdropWhile (p : List Char) :
    lastElementChars p = lastSegmentChars (p.rdropWhile (· = '/')) := by
  induction p using List.reverseRecOn with
  | nil => simp [lastElementChars, lastSegmentChars, segmentsChars]
  | append_singleton p c ih =>
    by_cases hc : c = '/'
    · subst hc
      rw [lastElementChars_snoc_sep, ih, List.rdropWhile_concat_pos]
      simp
    · rw [List.rdropWhile_concat_neg _ _ _ (by simpa using hc)]
      exact lastElementChars_of_lastSegment _ (lastSegmentChars_snoc p c hc)

theorem path.baseChars_eq (p : List Char) :
    path.baseChars p =
      if p = [] then ['.'] else if lastElementChars p = [] then ['/'] else lastElementChars p := by
  unfold path.baseChars
  by_cases hp : p = []
  · simp [hp]
  · simp only [hp, if_false]
    have h2 : (if 0 ≤ strings.lastIndexByte '/' (p.rdropWhile (· = '/'))
          then (p.rdropWhile (· = '/')).drop
            (strings.lastIndexByte '/' (p.rdropWhile (· = '/')) + 1).toNat
          else p.rdropWhile (· = '/'))
        = lastElementChars p := by
      rw [lastElementChars_eq_rdropWhile, lastSegmentChars_eq_split]
      generalize p.rdropWhile (· = '/') = q
      rcases exists_last_separator '/' q with h | ⟨d, f, hq, hf⟩
      · simp [path.splitChars, strings.lastIndexByte_of_not_mem '/' q h]
      · subst hq
        have hnn : (0 : Int) ≤ (d.length : Int) := Int.natCast_nonneg _
        simp [path.splitChars, strings.lastIndexByte_append '/' d f hf, hnn]
    simp only [h2]

theorem strings.TrimSuffix_dir (d : List Char) :
    strings.TrimSuffix ⟨d ++ ['/']⟩ "/" = ⟨d⟩ := by
  have hs : "/".data = ['/'] := rfl
  simp [strings.TrimSuffix, hs]

theorem strings.TrimSuffix_empty : strings.TrimSuffix ⟨[]⟩ "/" = ⟨[]⟩ := by
  decide

theorem finalSegment_eq_split (key : String) : finalSegment key = (path.Split key).2 := by
  simp [finalSegment, path.Split, lastSegmentChars_eq_split]

theorem stopped_jobName (key : String) :
    (path.Split (strings.TrimSuffix (path.Split key).1 "/")).2 = secondToLastSegment key := by
  obtain ⟨p⟩ := key
  rcases exists_last_separator '/' p with h | ⟨d, f, hp, hf⟩
  · simp only [path.Split, path.splitChars_of_not_mem p h, secondToLastSegment,
      secondToLastChars_of_not_mem p h, strings.TrimSuffix_empty]
    rfl
  · subst hp
    simp only [path.Split, path.splitChars_append d f hf, secondToLastSegment,
      secondToLastChars_append d f hf, strings.TrimSuffix_dir, lastSegmentChars_eq_split]

theorem scheduled_jobName (key : String) (h : secondToLastSegment key ≠ "") :
    path.Base (strings.TrimSuffix (path.Split key).1 "/") = secondToLastSegment key := by
  obtain ⟨p⟩ := key
  rcases exists_last_separator '/' p with hp | ⟨d, f, hp, hf⟩
  · exfalso
    apply h
    simp only [secondToLastSegment, secondToLastChars_of_not_mem p hp]
  · subst hp
    simp only [secondToLastSegment, secondToLastChars_append d f hf] at h ⊢
    have hl : lastSegmentChars d ≠ [] := by
      intro e; apply h; rw [e]
    have hd : d ≠ [] := by
      intro e; subst e; exact hl rfl
    simp only [path.Split, path.splitChars_append d f hf, strings.TrimSuffix_dir, path.Base,
      path.baseChars_eq, lastElementChars_of_lastSegment d hl, hd, hl, if_false]

theorem base_eq_iff_finalElement (key s : String) (hs : s ≠ "." ∧ s ≠ "/" ∧ s ≠ "") :
    path.Base key = s ↔ finalElement key = s := by
  obtain ⟨p⟩ := key
  obtain ⟨q⟩ := s
  simp only [path.Base, finalElement, path.baseChars_eq, String.ext_iff]
  have h1 : q ≠ ['.'] := fun e => hs.1 (by rw [e])
  have h2 : q ≠ ['/'] := fun e => hs.2.1 (by rw [e])
  have h3 : q ≠ [] := fun e => hs.2.2 (by rw [e])
  by_cases hp : p = []
  · subst hp
    simp only [if_true]
    constructor
    · intro e; exact absurd e.symm h1
    · intro e
      have : lastElementChars [] = [] := rfl
      rw [this] at e
      exact absurd e.symm h3
  · simp only [hp, if_false]
    by_cases he : lastElementChars p = []
    · simp only [he, if_true]
      constructor
      · intro e; exact absurd e.symm h2
      · intro e; exact absurd e.symm h3
    · simp only [he, if_false]

/-! ## Event filters -/

/-- C4, as the code has it: `filterEventJobScheduled` returns an event exactly when the action
is `set` and the final path segment of the key is `target`; the event then has kind
`EventJobScheduled`, a machine whose BootId is the raw value, and a job name that is the
second-to-last path segment of the key whenever that segment is not empty. -/
theorem job_scheduled_filter (resp : Response) :
    ((filterEventJobScheduled resp).isSome ↔
        resp.Action = "set" ∧ finalSegment resp.Node.Key = "target")
    ∧ (∀ ev, filterEventJobScheduled resp = some ev →
        ev.Kind = "EventJobScheduled"
        ∧ (∃ mach, ev.Context = some mach ∧ mach.BootId = resp.Node.Value)
        ∧ ∃ jobName, ev.Payload = .jobName jobName
            ∧ (secondToLastSegment resp.Node.Key ≠ "" →
                jobName = secondToLastSegment resp.Node.Key)) := by
  rw [finalSegment_eq_split]
  constructor
  · simp only [filterEventJobScheduled]
    by_cases ha : resp.Action = "set"
    · by_cases hb : (path.Split resp.Node.Key).2 = "target" <;> simp [ha, hb]
    · simp [ha]
  · intro ev hev
    simp only [filterEventJobScheduled] at hev
    by_cases ha : resp.Action = "set"
    · by_cases hb : (path.Split resp.Node.Key).2 = "target"
      · simp only [ha, hb, ne_eq, not_true_eq_false, if_false, Option.some.injEq] at hev
        subst hev
        refine ⟨rfl, ⟨_, rfl, rfl⟩, _, rfl, ?_⟩
        intro h
        exact scheduled_jobName resp.Node.Key h
      · simp [ha, hb] at hev
    · simp [ha] at hev

/-- C4 on the key `/coreos.com/coreinit/job/foo/target` with value `m1`: the event names
the job `foo` and a machine with BootId `m1`. -/
theorem job_scheduled_filter_witness :
    ∃ ev, filterEventJobScheduled ⟨"set", ⟨"/coreos.com/coreinit/job/foo/target", "m1", []⟩⟩
        = some ev
      ∧ ev.Kind = "EventJobScheduled"
      ∧ (∃ mach, ev.Context = some mach ∧ mach.BootId = "m1")
      ∧ ev.Payload = .jobName "foo" := by
  have hsome : (filterEventJobScheduled
      ⟨"set", ⟨"/coreos.com/coreinit/job/foo/target", "m1", []⟩⟩).isSome :=
    (job_scheduled_filter ⟨"set", ⟨"/coreos.com/coreinit/job/foo/target", "m1", []⟩⟩).1.mpr
      ⟨rfl, by decide⟩
  obtain ⟨ev, hev⟩ := Option.isSome_iff_exists.mp hsome
  obtain ⟨hkind, hmach, jobName, hpayload, hname⟩ :=
    (job_scheduled_filter ⟨"set", ⟨"/coreos.com/coreinit/job/foo/target", "m1", []⟩⟩).2 ev hev
  refine ⟨ev, hev, hkind, hmach, ?_⟩
  rw [hpayload, hname (by decide)]
  decide

/-- C4 fails as stated: for the `set` notification at the key `/target` the event carries the
job name `.`, while the second-to-last path segment of that key is empty. -/
theorem job_scheduled_filter_dot_name :
    filterEventJobScheduled ⟨"set", ⟨"/target", "m1", []⟩⟩
        = some ⟨"EventJobScheduled", .jobName ".", some (machine.New "m1" "" [])⟩
    ∧ pathSegments "/target" = ["", "target"]
    ∧ secondToLastSegment "/target" = ""
    ∧ ¬ (∀ (resp : Response) (ev : Event), filterEventJobScheduled resp = some ev →
          ev.Payload = .jobName (secondToLastSegment resp.Node.Key)) := by
  refine ⟨by decide, by decide, by decide, ?_⟩
  intro h
  have h2 := h ⟨"set", ⟨"/target", "m1", []⟩⟩
    ⟨"EventJobScheduled", .jobName ".", some (machine.New "m1" "" [])⟩ (by decide)
  revert h2
  decide

/-- C5: `filterEventJobStopped` returns an event exactly when the action is `delete` or
`expire` and the final path segment of the key is `target`; the event is then
`EventJobStopped` with the second-to-last path segment of the key as job name and no machine;
a `set` notification yields nothing. -/
theorem job_stopped_filter (resp : Response) :
    ((filterEventJobStopped resp).isSome ↔
        (resp.Action = "delete" ∨ resp.Action = "expire")
        ∧ finalSegment resp.Node.Key = "target")
    ∧ (∀ ev, filterEventJobStopped resp = some ev →
        ev = ⟨"EventJobStopped", .jobName (secondToLastSegment resp.Node.Key), none⟩)
    ∧ (resp.Action = "set" → filterEventJobStopped resp = none) := by
  rw [finalSegment_eq_split, ← stopped_jobName]
  refine ⟨?_, ?_, ?_⟩
  · simp only [filterEventJobStopped]
    by_cases ha : resp.Action = "delete" ∨ resp.Action = "expire"
    · have ha2 : ¬ (resp.Action ≠ "delete" ∧ resp.Action ≠ "expire") := by
        rcases ha with h | h <;> simp [h]
      by_cases hb : (path.Split resp.Node.Key).2 = "target" <;> simp [ha, ha2, hb]
    · have ha2 : resp.Action ≠ "delete" ∧ resp.Action ≠ "expire" := by
        constructor <;> intro h <;> simp [h] at ha
      simp [ha, ha2]
  · intro ev hev
    simp only [filterEventJobStopped] at hev
    by_cases ha2 : resp.Action ≠ "delete" ∧ resp.Action ≠ "expire"
    · simp [ha2] at hev
    · by_cases hb : (path.Split resp.Node.Key).2 = "target"
      · simp only [ha2, hb, ne_eq, not_true_eq_false, if_false, Option.some.injEq] at hev
        exact hev.symm
      · simp [ha2, hb] at hev
  · intro hset
    simp [filterEventJobStopped, hset]

/-- C5 on the key `/coreos.com/coreinit/job/foo/target`: `delete` and `expire` give
`EventJobStopped` for `foo`, `set` gives nothing. -/
theorem job_stopped_filter_witness :
    filterEventJobStopped ⟨"delete", ⟨"/coreos.com/coreinit/job/foo/target", "", []⟩⟩
        = some ⟨"EventJobStopped", .jobName "foo", none⟩
    ∧ filterEventJobStopped ⟨"expire", ⟨"/coreos.com/coreinit/job/foo/target", "", []⟩⟩
        = some ⟨"EventJobStopped", .jobName "foo", none⟩
    ∧ filterEventJobStopped ⟨"set", ⟨"/coreos.com/coreinit/job/foo/target", "m1", []⟩⟩ = none :=
  ⟨by decide, by decide,
   (job_stopped_filter ⟨"set", ⟨"/coreos.com/coreinit/job/foo/target", "m1", []⟩⟩).2.2 rfl⟩

/-- C6, as the code has it: `filterEventJobCreated` returns an event exactly when the action
is `set`, the final element of the key (its last non-empty segment, so that separators at
the end of the key are ignored) is `object` and the value decodes as a Job; the event is then
the one `EventJobCreated` carrying the decoded Job and no machine; a value that does not
decode gives no event. The final element is the final path segment of every key that does
not end with a separator. -/
theorem job_created_filter (env : Env) (resp : Response) :
    ((filterEventJobCreated env resp).isSome ↔
        resp.Action = "set" ∧ finalElement resp.Node.Key = "object"
        ∧ (env.jobs.unmarshal resp.Node.Value Job.zero).2 = none)
    ∧ (∀ ev, filterEventJobCreated env resp = some ev →
        ev = ⟨"EventJobCreated", .job (env.jobs.unmarshal resp.Node.Value Job.zero).1, none⟩)
    ∧ ((env.jobs.unmarshal resp.Node.Value Job.zero).2 ≠ none →
        filterEventJobCreated env resp = none)
    ∧ (finalSegment resp.Node.Key ≠ "" →
        finalElement resp.Node.Key = finalSegment resp.Node.Key) := by
  rw [← base_eq_iff_finalElement resp.Node.Key "object" (by decide)]
  refine ⟨?_, ?_, ?_, ?_⟩
  · simp only [filterEventJobCreated]
    by_cases ha : resp.Action = "set"
    · by_cases hb : path.Base resp.Node.Key = "object"
      · cases hd : (env.jobs.unmarshal resp.Node.Value Job.zero).2 <;> simp [ha, hb, hd]
      · simp [ha, hb]
    · simp [ha]
  · intro ev hev
    simp only [filterEventJobCreated] at hev
    by_cases ha : resp.Action = "set"
    · by_cases hb : path.Base resp.Node.Key = "object"
      · cases hd : (env.jobs.unmarshal resp.Node.Value Job.zero).2 with
        | none =>
          simp only [ha, hb, hd, ne_eq, not_true_eq_false, if_false, Option.some.injEq] at hev
          exact hev.symm
        | some e => simp [ha, hb, hd] at hev
      · simp [ha, hb] at hev
    · simp [ha] at hev
  · intro hd
    simp only [filterEventJobCreated]
    cases hd2 : (env.jobs.unmarshal resp.Node.Value Job.zero).2 with
    | none => exact absurd hd2 hd
    | some e =>
      by_cases ha : resp.Action = "set"
      · by_cases hb : path.Base resp.Node.Key = "object" <;> simp [ha, hb]
      · simp [ha]
  · intro h
    simp only [finalElement, finalSegment] at h ⊢
    rw [lastElementChars_of_lastSegment]
    intro e
    apply h
    rw [e]

/-- C6 on the key `/coreos.com/coreinit/job/foo/object`: the encoding of the job `foo` gives
one `EventJobCreated` carrying it, an undecodable value gives nothing. -/
theorem job_created_filter_witness :
    filterEventJobCreated lineEnv
        ⟨"set", ⟨"/coreos.com/coreinit/job/foo/object", "foo\nunit", []⟩⟩
      = some ⟨"EventJobCreated", .job ⟨"foo", "unit"⟩, none⟩
    ∧ filterEventJobCreated lineEnv
        ⟨"set", ⟨"/coreos.com/coreinit/job/foo/object", "garbage", []⟩⟩ = none :=
  ⟨by decide,
   (job_created_filter lineEnv
      ⟨"set", ⟨"/coreos.com/coreinit/job/foo/object", "garbage", []⟩⟩).2.2.1 (by decide)⟩

/-- C6 fails as stated: the `set` notification at the key
`/coreos.com/coreinit/job/foo/object/`, whose final path segment is empty, carries a value
that decodes, and the filter returns an event. -/
theorem job_created_filter_trailing_separator :
    filterEventJobCreated lineEnv
        ⟨"set", ⟨"/coreos.com/coreinit/job/foo/object/", "foo\nunit", []⟩⟩
      = some ⟨"EventJobCreated", .job ⟨"foo", "unit"⟩, none⟩
    ∧ finalSegment "/coreos.com/coreinit/job/foo/object/" = ""
    ∧ ¬ (∀ (env : Env) (resp : Response),
          (filterEventJobCreated env resp).isSome ↔
            resp.Action = "set" ∧ finalSegment resp.Node.Key = "object"
            ∧ (env.jobs.unmarshal resp.Node.Value Job.zero).2 = none) := by
  refine ⟨by decide, by decide, ?_⟩
  intro h
  have h2 := (h lineEnv ⟨"set", ⟨"/coreos.com/coreinit/job/foo/object/", "foo\nunit", []⟩⟩).mp
    (by decide)
  revert h2
  decide

/-! ## The loop of `path.Clean` -/

theorem dropWhile_length_le {α : Type} (p : α → Bool) (l : List α) :
    (l.dropWhile p).length ≤ l.length := by
  induction l with
  | nil => simp
  | cons x xs ih =>
    simp only [List.dropWhile_cons]
    split
    · exact Nat.le_succ_of_le ih
    · exact Nat.le_refl _

theorem path.cleanStep_length (r : Bool) (c : Char) (rest : List Char) (st : path.CleanState) :
    (path.cleanStep r c rest st).1.length ≤ rest.length := by
  unfold path.cleanStep
  split
  · exact Nat.le_refl _
  · split
    · exact Nat.le_refl _
    · split
      · have : rest.tail.length ≤ rest.length := by simp
        split
        · exact this
        · split <;> exact this
      · rename_i hc _ _
        have hc2 : (c ≠ '/') := hc
        simp only [List.dropWhile_cons, ne_eq, hc, not_false_eq_true, decide_True, if_true]
        exact dropWhile_length_le _ rest

theorem path.cleanLoop_fuel (r : Bool) (f g : Nat) (p : List Char) (st : path.CleanState)
    (hf : p.length ≤ f) (hg : p.length ≤ g) :
    path.cleanLoop r f p st = path.cleanLoop r g p st := by
  induction f generalizing g p st with
  | zero =>
    have hp : p = [] := List.length_eq_zero.mp (Nat.le_zero.mp hf)
    subst hp
    cases g <;> rfl
  | succ f ih =>
    cases p with
    | nil => cases g <;> rfl
    | cons c rest =>
      cases g with
      | zero => simp at hg
      | succ g =>
        simp only [path.cleanLoop]
        have hl := path.cleanStep_length r c rest st
        simp only [List.length_cons] at hf hg
        exact ih g _ _ (by omega) (by omega)

theorem path.cleanRun_nil (r : Bool) (st : path.CleanState) : path.cleanRun r [] st = st := rfl

theorem path.cleanRun_cons (r : Bool) (c : Char) (rest : List Char) (st : path.CleanState) :
    path.cleanRun r (c :: rest) st
      = path.cleanRun r (path.cleanStep r c rest st).1 (path.cleanStep r c rest st).2 := by
  simp only [path.cleanRun, List.length_cons, path.cleanLoop]
  exact path.cleanLoop_fuel r _ _ _ _ (path.cleanStep_length r c rest st) (Nat.le_refl _)

theorem EndsAtSeparator.tail {c : Char} {rest : List Char} (h : EndsAtSeparator (c :: rest)) :
    EndsAtSeparator rest := by
  cases rest with
  | nil => exact Or.inl rfl
  | cons x xs =>
    rcases h with h | h
    · simp at h
    · right
      simpa [List.getLast?_cons_cons] using h

theorem EndsAtSeparator.mem {p : List Char} (h : EndsAtSeparator p) (hp : p ≠ []) : '/' ∈ p := by
  rcases h with h | h
  · exact absurd h hp
  · exact List.mem_of_getLast?_eq_some h

theorem EndsAtSeparator.dropWhile {p : List Char} (h : EndsAtSeparator p) (q : Char → Bool) :
    EndsAtSeparator (p.dropWhile q) := by
  induction p with
  | nil => exact Or.inl rfl
  | cons x xs ih =>
    simp only [List.dropWhile_cons]
    split
    · exact ih h.tail
    · exact h

theorem takeWhile_append_of_sep (a b : List Char) (h : '/' ∈ a) :
    (a ++ b).takeWhile (· ≠ '/') = a.takeWhile (· ≠ '/')
    ∧ (a ++ b).dropWhile (· ≠ '/') = a.dropWhile (· ≠ '/') ++ b := by
  induction a with
  | nil => simp at h
  | cons x xs ih =>
    by_cases hx : x = '/'
    · simp [hx]
    · have hm : '/' ∈ xs := by
        rcases List.mem_cons.mp h with e | e
        · exact absurd e.symm hx
        · exact e
      have ih2 := ih hm
      simp only [List.cons_append, List.takeWhile_cons, List.dropWhile_cons, ne_eq, hx,
        not_false_eq_true, decide_True, if_true, ih2.1, ih2.2, and_self]

theorem path.cleanStep_append (r : Bool) (c : Char) (rest b : List Char) (st : path.CleanState)
    (h : EndsAtSeparator (c :: rest)) :
    path.cleanStep r c (rest ++ b) st
        = ((path.cleanStep r c rest st).1 ++ b, (path.cleanStep r c rest st).2)
    ∧ EndsAtSeparator (path.cleanStep r c rest st).1 := by
  by_cases hc : c = '/'
  · simp only [path.cleanStep, hc, if_true]
    exact ⟨trivial, h.tail⟩
  · have hmem : '/' ∈ c :: rest := h.mem (by simp)
    have hT := takeWhile_append_of_sep (c :: rest) b hmem
    rw [List.cons_append] at hT
    cases rest with
    | nil =>
      rcases h with h | h
      · simp at h
      · simp at h; exact absurd h hc
    | cons x xs =>
      have ht := h.tail
      cases xs with
      | nil =>
        have hx : x = '/' := by
          rcases ht with e | e
          · simp at e
          · simpa using e
        subst hx
        by_cases hd : c = '.'
        · simp [path.cleanStep, hc, hd, EndsAtSeparator]
        · simp [path.cleanStep, hc, hd, EndsAtSeparator]
      | cons y ys =>
        have htt := ht.tail
        by_cases hd : c = '.'
        · by_cases hx : x = '/'
          · subst hd hx
            refine ⟨?_, ?_⟩ <;> simp [path.cleanStep, EndsAtSeparator]
            simpa [EndsAtSeparator] using ht
          · by_cases hx2 : x = '.'
            · by_cases hy : y = '/'
              · subst hd hx2 hy
                simp only [path.cleanStep, List.cons_append, List.head?_cons, List.tail_cons]
                refine ⟨?_, ?_⟩
                · split_ifs <;> simp_all
                · split_ifs <;> simp_all
              · have c3 : ¬ (c = '.' ∧ (x :: y :: ys).head? = some '.'
                    ∧ ((x :: y :: ys).tail = [] ∨ (x :: y :: ys).tail.head? = some '/')) := by
                  simp [hy]
                have c3b : ¬ (c = '.' ∧ (x :: y :: ys ++ b).head? = some '.'
                    ∧ ((x :: y :: ys ++ b).tail = [] ∨ (x :: y :: ys ++ b).tail.head? = some '/')) := by
                  simp [hy]
                have c2 : ¬ (c = '.' ∧ ((x :: y :: ys) = [] ∨ (x :: y :: ys).head? = some '/')) := by
                  simp [hx]
                have c2b : ¬ (c = '.' ∧ ((x :: y :: ys ++ b) = [] ∨ (x :: y :: ys ++ b).head? = some '/')) := by
                  simp [hx]
                simp only [path.cleanStep, hc, c2, c2b, c3, c3b, if_false]
                rw [hT.1, hT.2]
                exact ⟨rfl, h.dropWhile _⟩
            · have c3 : ¬ (c = '.' ∧ (x :: y :: ys).head? = some '.'
                  ∧ ((x :: y :: ys).tail = [] ∨ (x :: y :: ys).tail.head? = some '/')) := by
                simp [hx2]
              have c3b : ¬ (c = '.' ∧ (x :: y :: ys ++ b).head? = some '.'
                  ∧ ((x :: y :: ys ++ b).tail = [] ∨ (x :: y :: ys ++ b).tail.head? = some '/')) := by
                simp [hx2]
              have c2 : ¬ (c = '.' ∧ ((x :: y :: ys) = [] ∨ (x :: y :: ys).head? = some '/')) := by
                simp [hx]
              have c2b : ¬ (c = '.' ∧ ((x :: y :: ys ++ b) = [] ∨ (x :: y :: ys ++ b).head? = some '/')) := by
                simp [hx]
              simp only [path.cleanStep, hc, c2, c2b, c3, c3b, if_false]
              rw [hT.1, hT.2]
              exact ⟨rfl, h.dropWhile _⟩
        · have c3 : ¬ (c = '.' ∧ (x :: y :: ys).head? = some '.'
              ∧ ((x :: y :: ys).tail = [] ∨ (x :: y :: ys).tail.head? = some '/')) := by
            simp [hd]
          have c3b : ¬ (c = '.' ∧ (x :: y :: ys ++ b).head? = some '.'
              ∧ ((x :: y :: ys ++ b).tail = [] ∨ (x :: y :: ys ++ b).tail.head? = some '/')) := by
            simp [hd]
          have c2 : ¬ (c = '.' ∧ ((x :: y :: ys) = [] ∨ (x :: y :: ys).head? = some '/')) := by
            simp [hd]
          have c2b : ¬ (c = '.' ∧ ((x :: y :: ys ++ b) = [] ∨ (x :: y :: ys ++ b).head? = some '/')) := by
            simp [hd]
          simp only [path.cleanStep, hc, c2, c2b, c3, c3b, if_false]
          rw [hT.1, hT.2]
          exact ⟨rfl, h.dropWhile _⟩

theorem path.cleanRun_append (r : Bool) (a b : List Char) (st : path.CleanState)
    (h : EndsAtSeparator a) :
    path.cleanRun r (a ++ b) st = path.cleanRun r b (path.cleanRun r a st) := by
  generalize hn : a.length = n
  induction n using Nat.strong_induction_on generalizing a st with
  | _ n ih =>
    cases a with
    | nil => simp [path.cleanRun_nil]
    | cons c rest =>
      have hs := path.cleanStep_append r c rest b st h
      have hl := path.cleanStep_length r c rest st
      rw [List.cons_append, path.cleanRun_cons, path.cleanRun_cons, hs.1]
      simp only [List.length_cons] at hn
      exact ih _ (by omega) _ _ hs.2 rfl

theorem path.cleanRun_sep (r : Bool) (t : List Char) (st : path.CleanState) :
    path.cleanRun r ('/' :: t) st = path.cleanRun r t st := by
  rw [path.cleanRun_cons]
  simp [path.cleanStep]

theorem takeWhile_element (e t : List Char) (he : '/' ∉ e) (ht : StartsAtSeparator t) :
    (e ++ t).takeWhile (· ≠ '/') = e ∧ (e ++ t).dropWhile (· ≠ '/') = t := by
  induction e with
  | nil =>
    rcases ht with ht | ht
    · simp [ht]
    · cases t with
      | nil => simp
      | cons x xs =>
        have hx : x = '/' := by simpa using ht
        simp [hx]
  | cons x xs ih =>
    have hx : x ≠ '/' := fun e => he (e ▸ List.mem_cons_self _ _)
    have hxs : '/' ∉ xs := fun m => he (List.mem_cons_of_mem _ m)
    have ih2 := ih hxs
    simp only [List.cons_append, List.takeWhile_cons, List.dropWhile_cons, ne_eq, hx,
      not_false_eq_true, decide_True, if_true, ih2.1, ih2.2, and_self]

theorem path.cleanStep_element (r : Bool) (c : Char) (es t : List Char) (st : path.CleanState)
    (he : PlainChars (c :: es)) (ht : StartsAtSeparator t) :
    path.cleanStep r c (es ++ t) st = (t, pushElement r st (c :: es)) := by
  obtain ⟨_, hsep, hdot, hdotdot⟩ := he
  have hc : c ≠ '/' := fun e => hsep (e ▸ List.mem_cons_self _ _)
  have hes : '/' ∉ es := fun m => hsep (List.mem_cons_of_mem _ m)
  have hT := takeWhile_element (c :: es) t hsep ht
  rw [List.cons_append] at hT
  have c2 : ¬ (c = '.' ∧ (es ++ t = [] ∨ (es ++ t).head? = some '/')) := by
    rintro ⟨hd, h2⟩
    cases es with
    | nil => exact hdot (by rw [hd])
    | cons x xs =>
      have hx : x ≠ '/' := fun e => hes (e ▸ List.mem_cons_self _ _)
      rcases h2 with h2 | h2
      · simp at h2
      · exact hx (by simpa using h2)
  have c3 : ¬ (c = '.' ∧ (es ++ t).head? = some '.'
      ∧ ((es ++ t).tail = [] ∨ (es ++ t).tail.head? = some '/')) := by
    rintro ⟨hd, h2, h3⟩
    cases es with
    | nil => exact hdot (by rw [hd])
    | cons x xs =>
      have hx : x = '.' := by simpa using h2
      cases xs with
      | nil => exact hdotdot (by rw [hd, hx])
      | cons y ys =>
        have hy : y ≠ '/' := fun e =>
          hes (e ▸ List.mem_cons_of_mem _ (List.mem_cons_self _ _))
        rcases h3 with h3 | h3
        · simp at h3
        · exact hy (by simpa using h3)
  simp only [path.cleanStep, hc, c2, c3, if_false, hT.1, hT.2, pushElement]

theorem path.cleanRun_element (r : Bool) (e t : List Char) (st : path.CleanState)
    (he : PlainChars e) (ht : StartsAtSeparator t) :
    path.cleanRun r (e ++ t) st = path.cleanRun r t (pushElement r st e) := by
  cases e with
  | nil => exact absurd rfl he.1
  | cons c es =>
    rw [List.cons_append, path.cleanRun_cons, path.cleanStep_element r c es t st he ht]

theorem pushElement_out_ne_nil (r : Bool) (st : path.CleanState) (e : List Char) (he : e ≠ []) :
    (pushElement r st e).out ≠ [] := by
  simp [pushElement, he]

theorem pushElement_twice (r : Bool) (st : path.CleanState) (e f : List Char) (he : e ≠ []) :
    (pushElement r (pushElement r st e) f).out = (pushElement r st e).out ++ '/' :: f := by
  have hlen : 0 < e.length := List.length_pos.mpr he
  cases r with
  | true =>
    by_cases h1 : st.out.length = 1
    · have h2 : (st.out ++ e).length ≠ 1 := by
        rw [List.length_append]; omega
      simp [pushElement, h1, he]
    · have h2 : ¬ (st.out.length + (e.length + 1) = 1) := by omega
      simp [pushElement, h1, h2]
  | false =>
    by_cases h0 : st.out.length = 0
    · have h0b : st.out = [] := List.length_eq_zero.mp h0
      simp [pushElement, h0b, he]
    · have h0b : st.out ≠ [] := fun e => h0 (by rw [e]; rfl)
      simp [pushElement, h0b]

/-- What `path.Clean` does with a path `x ++ b` whose part `x` is not empty and ends at a
separator: the loop reaches `b` in a state that depends on `x` alone. -/
theorem path.cleanChars_prefix (x : List Char) (hx : x ≠ []) (hx2 : EndsAtSeparator x) :
    ∃ (r : Bool) (s : path.CleanState), ∀ b : List Char,
      path.cleanChars (x ++ b)
        = if (path.cleanRun r b s).out.length = 0 then ['.'] else (path.cleanRun r b s).out := by
  cases x with
  | nil => exact absurd rfl hx
  | cons c rest =>
    by_cases hc : c = '/'
    · refine ⟨true, path.cleanRun true rest { out := ['/'], dotdot := 1 }, fun b => ?_⟩
      simp only [path.cleanChars, List.cons_append, hc, decide_True, if_true]
      rw [path.cleanRun_append true rest b _ hx2.tail]
    · refine ⟨false, path.cleanRun false (c :: rest) { out := [], dotdot := 0 }, fun b => ?_⟩
      simp only [path.cleanChars, List.cons_append, hc, decide_False]
      rw [← List.cons_append, path.cleanRun_append false (c :: rest) b _ hx2]
      simp

/-! ## Shape of the keys -/

theorem path.cleanRun_last_element (r : Bool) (e : List Char) (st : path.CleanState)
    (he : PlainChars e) : path.cleanRun r e st = pushElement r st e := by
  have h := path.cleanRun_element r e [] st he (Or.inl rfl)
  rw [List.append_nil, path.cleanRun_nil] at h
  exact h

theorem join_job_chars (k name last : String) :
    (path.Join [k, jobPrefix, name, last]).data
      = path.cleanChars (((if k = "" then [] else k.data ++ ['/']) ++ ['/'])
          ++ (['j', 'o', 'b'] ++ '/' :: '/' :: (name.data ++ '/' :: last.data))) := by
  have hj : jobPrefix ≠ "" := by decide
  have hjd : jobPrefix.data = ['/', 'j', 'o', 'b', '/'] := rfl
  have hs : "/".data = ['/'] := rfl
  by_cases hk : k = ""
  · subst hk
    simp [path.Join, List.dropWhile, hj, strings.Join, strings.joinChars, path.Clean, hjd, hs]
  · simp [path.Join, List.dropWhile, hk, strings.Join, strings.joinChars, path.Clean, hjd, hs]

theorem join_payload_chars (k name : String) :
    (path.Join [k, payloadPrefix, name]).data
      = path.cleanChars (((if k = "" then [] else k.data ++ ['/']) ++ ['/'])
          ++ (['p', 'a', 'y', 'l', 'o', 'a', 'd'] ++ '/' :: '/' :: name.data)) := by
  have hj : payloadPrefix ≠ "" := by decide
  have hjd : payloadPrefix.data = ['/', 'p', 'a', 'y', 'l', 'o', 'a', 'd', '/'] := rfl
  have hs : "/".data = ['/'] := rfl
  by_cases hk : k = ""
  · subst hk
    simp [path.Join, List.dropWhile, hj, strings.Join, strings.joinChars, path.Clean, hjd, hs]
  · simp [path.Join, List.dropWhile, hk, strings.Join, strings.joinChars, path.Clean, hjd, hs]

theorem key_root_ends (k : String) :
    ((if k = "" then [] else k.data ++ ['/']) ++ ['/']) ≠ []
    ∧ EndsAtSeparator ((if k = "" then [] else k.data ++ ['/']) ++ ['/']) := by
  constructor
  · simp
  · right; simp

/-- For every key prefix there is a common stem such that the keys of plain names are the
stem followed by `job/<name>/<last>` or by `payload/<name>`. -/
theorem key_shapes (k : String) :
    ∃ stem : List Char,
      (∀ name last : String, PlainChars name.data → PlainChars last.data →
          (path.Join [k, jobPrefix, name, last]).data
            = stem ++ (['j', 'o', 'b'] ++ '/' :: (name.data ++ '/' :: last.data)))
      ∧ (∀ name : String, PlainChars name.data →
          (path.Join [k, payloadPrefix, name]).data
            = stem ++ (['p', 'a', 'y', 'l', 'o', 'a', 'd'] ++ '/' :: name.data)) := by
  obtain ⟨hne, hends⟩ := key_root_ends k
  obtain ⟨r, s, hrs⟩ := path.cleanChars_prefix _ hne hends
  refine ⟨(if (r ∧ s.out.length ≠ 1) ∨ (!r ∧ s.out.length ≠ 0) then s.out ++ ['/'] else s.out),
    ?_, ?_⟩
  · intro name last hname hlast
    have hjob : PlainChars ['j', 'o', 'b'] := by
      refine ⟨by simp, by decide, by decide, by decide⟩
    rw [join_job_chars, hrs]
    rw [path.cleanRun_element r ['j', 'o', 'b'] ('/' :: '/' :: (name.data ++ '/' :: last.data)) s
          hjob (Or.inr rfl),
      path.cleanRun_sep, path.cleanRun_sep,
      path.cleanRun_element r name.data ('/' :: last.data) _ hname (Or.inr rfl),
      path.cleanRun_sep, path.cleanRun_last_element r _ _ hlast]
    have hout := pushElement_out_ne_nil r (pushElement r (pushElement r s ['j', 'o', 'b']) name.data)
      last.data hlast.1
    have hlen : (pushElement r (pushElement r (pushElement r s ['j', 'o', 'b']) name.data)
        last.data).out.length ≠ 0 := fun e => hout (List.length_eq_zero.mp e)
    rw [if_neg hlen, pushElement_twice r _ _ _ hname.1, pushElement_twice r _ _ _ (by simp)]
    simp [pushElement]
  · intro name hname
    have hpay : PlainChars ['p', 'a', 'y', 'l', 'o', 'a', 'd'] := by
      refine ⟨by simp, by decide, by decide, by decide⟩
    rw [join_payload_chars, hrs]
    rw [path.cleanRun_element r ['p', 'a', 'y', 'l', 'o', 'a', 'd'] ('/' :: '/' :: name.data) s
          hpay (Or.inr rfl),
      path.cleanRun_sep, path.cleanRun_sep, path.cleanRun_last_element r _ _ hname]
    have hout := pushElement_out_ne_nil r (pushElement r s ['p', 'a', 'y', 'l', 'o', 'a', 'd'])
      name.data hname.1
    have hlen : (pushElement r (pushElement r s ['p', 'a', 'y', 'l', 'o', 'a', 'd'])
        name.data).out.length ≠ 0 := fun e => hout (List.length_eq_zero.mp e)
    rw [if_neg hlen, pushElement_twice r _ _ _ (by simp)]
    simp [pushElement]

/-- Whatever the job name, the key built with a plain last element ends with that element. -/
theorem key_last_element (k name last : String) (hlast : PlainChars last.data) :
    ∃ pre : List Char, (path.Join [k, jobPrefix, name, last]).data = pre ++ last.data := by
  have hx : ((if k = "" then [] else k.data ++ ['/']) ++ ['/'])
        ++ (['j', 'o', 'b'] ++ '/' :: '/' :: (name.data ++ '/' :: last.data))
      = (((if k = "" then [] else k.data ++ ['/']) ++ ['/'])
        ++ (['j', 'o', 'b'] ++ '/' :: '/' :: (name.data ++ ['/']))) ++ last.data := by
    simp
  have hne : (((if k = "" then [] else k.data ++ ['/']) ++ ['/'])
        ++ (['j', 'o', 'b'] ++ '/' :: '/' :: (name.data ++ ['/']))) ≠ [] := by simp
  have hends : EndsAtSeparator (((if k = "" then [] else k.data ++ ['/']) ++ ['/'])
        ++ (['j', 'o', 'b'] ++ '/' :: '/' :: (name.data ++ ['/']))) := by
    right
    have e : (((if k = "" then [] else k.data ++ ['/']) ++ ['/'])
          ++ (['j', 'o', 'b'] ++ '/' :: '/' :: (name.data ++ ['/'])))
        = ((((if k = "" then [] else k.data ++ ['/']) ++ ['/'])
          ++ (['j', 'o', 'b'] ++ '/' :: '/' :: name.data))) ++ ['/'] := by simp
    rw [e]
    exact List.getLast?_concat _
  obtain ⟨r, s, hrs⟩ := path.cleanChars_prefix _ hne hends
  rw [join_job_chars, hx, hrs]
  rw [path.cleanRun_last_element r _ _ hlast]
  have hout := pushElement_out_ne_nil r s last.data hlast.1
  have hlen : (pushElement r s last.data).out.length ≠ 0 :=
    fun e => hout (List.length_eq_zero.mp e)
  rw [if_neg hlen]
  exact ⟨_, rfl⟩

theorem plain_keys_apart (p a b s rest : List Char) (ha : '/' ∉ a) (hb : '/' ∉ b)
    (hab : a ≠ b) (hs : StartsAtSeparator s) (hr : StartsAtSeparator rest) :
    p ++ (a ++ s) ≠ p ++ (b ++ s) ++ rest := by
  intro h
  rw [List.append_assoc, List.append_assoc] at h
  have h2 := List.append_cancel_left h
  have hsr : StartsAtSeparator (s ++ rest) := by
    cases s with
    | nil => simpa using hr
    | cons x xs =>
      rcases hs with hs | hs
      · simp at hs
      · right; simpa using hs
  have e1 := (takeWhile_element a s ha hs).1
  have e2 := (takeWhile_element b (s ++ rest) hb hsr).1
  rw [h2, e2] at e1
  exact hab e1.symm

theorem Store.lookup_append_of_none (key : String) (a b : Store)
    (h : Store.lookup key b = none) : Store.lookup key (a ++ b) = Store.lookup key a := by
  induction a with
  | nil => simpa [Store.lookup] using h
  | cons e rest ih =>
    obtain ⟨k, v⟩ := e
    simp only [List.cons_append, Store.lookup, List.append_eq, ih]

theorem Store.lookup_filter_ne (key other : String) (st : Store) (h : other ≠ key) :
    Store.lookup other (st.filter (fun e => e.1 ≠ key)) = Store.lookup other st := by
  induction st with
  | nil => rfl
  | cons e rest ih =>
    obtain ⟨k, v⟩ := e
    by_cases hk : k = key
    · have hko : k ≠ other := fun e => h (e ▸ hk)
      rw [List.filter_cons_of_neg (by simp [hk]), ih]
      simp only [Store.lookup, hko, if_false]
    · rw [List.filter_cons_of_pos (by simp [hk])]
      simp only [Store.lookup, ih]

theorem Store.mem_ancestorsFrom (acc cs : List Char) (s : String)
    (h : s ∈ Store.ancestorsFrom acc cs) :
    ∃ pre rest, cs = pre ++ '/' :: rest ∧ s.data = acc ++ pre := by
  induction cs generalizing acc with
  | nil => simp [Store.ancestorsFrom] at h
  | cons c cs ih =>
    simp only [Store.ancestorsFrom, List.mem_append] at h
    rcases h with h | h
    · by_cases hc : c = '/' ∧ acc ≠ []
      · simp only [hc, ne_eq, not_false_eq_true, and_self, if_true, List.mem_singleton] at h
        exact ⟨[], cs, by simp [hc.1], by simp [h]⟩
      · simp [hc] at h
    · obtain ⟨pre, rest, h1, h2⟩ := ih _ h
      exact ⟨c :: pre, rest, by simp [h1], by simp [h2]⟩

theorem Store.lookup_write_other (st : Store) (key value other : String) (hne : other ≠ key)
    (hanc : ∀ rest, key.data ≠ other.data ++ '/' :: rest) :
    Store.lookup other (Store.write st key value) = Store.lookup other st := by
  have hk : key ≠ other := fun e => hne e.symm
  simp only [Store.write, Store.lookup, hk, if_false, List.append_eq]
  rw [Store.lookup_append_of_none, Store.lookup_filter_ne _ _ _ hne]
  apply Store.lookup_eq_none_of_forall
  intro e he
  simp only [List.mem_map, List.mem_filter] at he
  obtain ⟨d, ⟨hd, _⟩, rfl⟩ := he
  obtain ⟨pre, rest, h1, h2⟩ := Store.mem_ancestorsFrom [] key.data d hd
  intro e
  simp only at e
  apply hanc rest
  rw [h1, ← e, h2]
  simp

theorem Store.lookup_etcdSet_other (c : Client) (st : Store) (key value other : String)
    (hne : other ≠ key) (hanc : ∀ rest, key.data ≠ other.data ++ '/' :: rest) :
    Store.lookup other (etcdSet c st key value) = Store.lookup other st := by
  rcases etcdSet_eq_or c st key value with h | h
  · rw [h]
  · rw [h, Store.lookup_write_other st key value other hne hanc]

/-! ## Key schema -/

/-- C10, as the code has it: the keys of two distinct plain names (a single path element,
neither `.` nor `..`) differ, for job objects, job targets and payloads; no job object key is
a job target key, whatever the names; no job object key of a plain name is the payload key of
a plain name; and a write for one plain name leaves the record read for another plain name as
it was. -/
theorem key_schema_collision_free (env : Env) (a b : String) :
    (PlainName a → PlainName b → a ≠ b →
        path.Join [env.keyPrefix, jobPrefix, a, "object"]
          ≠ path.Join [env.keyPrefix, jobPrefix, b, "object"]
        ∧ path.Join [env.keyPrefix, jobPrefix, a, "target"]
          ≠ path.Join [env.keyPrefix, jobPrefix, b, "target"]
        ∧ path.Join [env.keyPrefix, payloadPrefix, a]
          ≠ path.Join [env.keyPrefix, payloadPrefix, b])
    ∧ path.Join [env.keyPrefix, jobPrefix, a, "object"]
        ≠ path.Join [env.keyPrefix, jobPrefix, b, "target"]
    ∧ (PlainName a → PlainName b →
        path.Join [env.keyPrefix, jobPrefix, a, "object"]
          ≠ path.Join [env.keyPrefix, payloadPrefix, b])
    ∧ (PlainName a → PlainName b → a ≠ b → ∀ (st : Store) (rest m : String),
        GetJob env (CreateJob env st ⟨a, rest⟩) b = GetJob env st b
        ∧ GetJobTarget env (ScheduleJob env st a m) b = GetJobTarget env st b
        ∧ GetPayload env (CreatePayload env st ⟨a, rest⟩) b = GetPayload env st b) := by
  obtain ⟨stem, hjob, hpay⟩ := key_shapes env.keyPrefix
  have hobj : PlainChars "object".data := by decide
  have htgt : PlainChars "target".data := by decide
  have hso : StartsAtSeparator ('/' :: "object".data) := Or.inr rfl
  have hst : StartsAtSeparator ('/' :: "target".data) := Or.inr rfl
  -- keys of two distinct plain names, with an optional remainder below the second key
  have apartJob : ∀ (last a b : String), PlainChars last.data → PlainName a → PlainName b →
      a ≠ b → ∀ rest, StartsAtSeparator rest →
        (path.Join [env.keyPrefix, jobPrefix, a, last]).data
          ≠ (path.Join [env.keyPrefix, jobPrefix, b, last]).data ++ rest := by
    intro last a b hlast ha hb hab rest hrest
    rw [hjob a last ha hlast, hjob b last hb hlast]
    have h := plain_keys_apart (stem ++ ['j', 'o', 'b', '/']) a.data b.data ('/' :: last.data) rest
      ha.2.1 hb.2.1 (fun e => hab (String.ext e)) (Or.inr rfl) hrest
    simpa using h
  have apartPayload : ∀ (a b : String), PlainName a → PlainName b → a ≠ b →
      ∀ rest, StartsAtSeparator rest →
        (path.Join [env.keyPrefix, payloadPrefix, a]).data
          ≠ (path.Join [env.keyPrefix, payloadPrefix, b]).data ++ rest := by
    intro a b ha hb hab rest hrest
    rw [hpay a ha, hpay b hb]
    have h := plain_keys_apart (stem ++ ['p', 'a', 'y', 'l', 'o', 'a', 'd', '/']) a.data b.data []
      rest ha.2.1 hb.2.1 (fun e => hab (String.ext e)) (Or.inl rfl) hrest
    simpa using h
  refine ⟨?_, ?_, ?_, ?_⟩
  · intro ha hb hab
    refine ⟨?_, ?_, ?_⟩
    · intro e
      have h := apartJob "object" a b hobj ha hb hab [] (Or.inl rfl)
      rw [e] at h
      simp at h
    · intro e
      have h := apartJob "target" a b htgt ha hb hab [] (Or.inl rfl)
      rw [e] at h
      simp at h
    · intro e
      have h := apartPayload a b ha hb hab [] (Or.inl rfl)
      rw [e] at h
      simp at h
  · intro e
    obtain ⟨p1, h1⟩ := key_last_element env.keyPrefix a "object" hobj
    obtain ⟨p2, h2⟩ := key_last_element env.keyPrefix b "target" htgt
    rw [e, h2] at h1
    have h3 := (List.append_inj' h1 (by decide)).2
    revert h3
    decide
  · intro ha hb e
    have h1 := hjob a "object" ha hobj
    rw [e, hpay b hb] at h1
    have h2 := List.append_cancel_left h1
    simp at h2
  · intro ha hb hab st rest m
    have hba : b ≠ a := fun e => hab e.symm
    refine ⟨?_, ?_, ?_⟩
    · rw [GetJob_eq, GetJob_eq]
      simp only [CreateJob]
      rw [Store.lookup_etcdSet_other]
      · intro e
        have h := apartJob "object" b a hobj hb ha hba [] (Or.inl rfl)
        rw [e] at h
        simp at h
      · intro r e
        have h := apartJob "object" a b hobj ha hb hab ('/' :: r) (Or.inr rfl)
        exact h e
    · rw [GetJobTarget_eq, GetJobTarget_eq]
      simp only [ScheduleJob]
      rw [Store.lookup_etcdSet_other]
      · intro e
        have h := apartJob "target" b a htgt hb ha hba [] (Or.inl rfl)
        rw [e] at h
        simp at h
      · intro r e
        have h := apartJob "target" a b htgt ha hb hab ('/' :: r) (Or.inr rfl)
        exact h e
    · rw [GetPayload_eq, GetPayload_eq]
      simp only [CreatePayload]
      rw [Store.lookup_etcdSet_other]
      · intro e
        have h := apartPayload b a hb ha hba [] (Or.inl rfl)
        rw [e] at h
        simp at h
      · intro r e
        have h := apartPayload a b ha hb hab ('/' :: r) (Or.inr rfl)
        exact h e

/-- C10 for the names `foo` and `bar` under the key prefix `/coreos.com/coreinit/`: the keys
differ and creating the job `foo` leaves the record of the job `bar` as it was. -/
theorem key_schema_collision_free_witness :
    (path.Join [lineEnv.keyPrefix, jobPrefix, "foo", "object"]
        ≠ path.Join [lineEnv.keyPrefix, jobPrefix, "bar", "object"]
      ∧ path.Join [lineEnv.keyPrefix, jobPrefix, "foo", "target"]
        ≠ path.Join [lineEnv.keyPrefix, jobPrefix, "bar", "target"]
      ∧ path.Join [lineEnv.keyPrefix, payloadPrefix, "foo"]
        ≠ path.Join [lineEnv.keyPrefix, payloadPrefix, "bar"])
    ∧ path.Join [lineEnv.keyPrefix, jobPrefix, "foo", "object"]
        ≠ path.Join [lineEnv.keyPrefix, payloadPrefix, "bar"]
    ∧ GetJob lineEnv (CreateJob lineEnv (CreateJob lineEnv [] ⟨"bar", "two"⟩) ⟨"foo", "one"⟩)
        "bar" = some ⟨"bar", "two"⟩ :=
  ⟨(key_schema_collision_free lineEnv "foo" "bar").1 (by decide) (by decide) (by decide),
   (key_schema_collision_free lineEnv "foo" "bar").2.2.1 (by decide) (by decide),
   (((key_schema_collision_free lineEnv "foo" "bar").2.2.2 (by decide) (by decide) (by decide)
      (CreateJob lineEnv [] ⟨"bar", "two"⟩) "one" "").1).trans (by decide)⟩

/-- C10 fails as stated: the distinct job names `foo` and `foo/` are given the same object
key and the same target key, the payload name `../job/foo/object` is given the object key of
the job `foo`, and creating the job `foo/` overwrites the record of the job `foo`. -/
theorem key_schema_collisions :
    ("foo" : String) ≠ "foo/"
    ∧ path.Join [lineEnv.keyPrefix, jobPrefix, "foo", "object"]
        = path.Join [lineEnv.keyPrefix, jobPrefix, "foo/", "object"]
    ∧ path.Join [lineEnv.keyPrefix, jobPrefix, "foo", "target"]
        = path.Join [lineEnv.keyPrefix, jobPrefix, "foo/", "target"]
    ∧ path.Join [lineEnv.keyPrefix, jobPrefix, "foo", "object"]
        = path.Join [lineEnv.keyPrefix, payloadPrefix, "../job/foo/object"]
    ∧ GetJob lineEnv (CreateJob lineEnv [] ⟨"foo", "one"⟩) "foo" = some ⟨"foo", "one"⟩
    ∧ GetJob lineEnv (CreateJob lineEnv (CreateJob lineEnv [] ⟨"foo", "one"⟩) ⟨"foo/", "two"⟩)
        "foo" = some ⟨"foo/", "two"⟩ := by
  decide
